import Mathlib

/-!
Verification of the lbrtool archive engine (src/lbr.cpp).

Shallow embedding of the LBR archive tool: the PETSCII/ASCII codec, the
decimal field rendering and `atoi` parsing, the directory grammar shared by
`list_lbr`, `extract_lbr` and `find_in_lbr`, the builder `build_lbr`, and the
stream-rewriting mutators `delete_lbr` (delete / wipe) and `chtype_lbr`.

Bytes are modelled as `Nat` in `[0,255]`; the C `char` is signed on the
reference platform, so every comparison the source performs on a `char` is
performed here on `sgnByte c`, the value of the byte read as a signed 8-bit
integer.  Streams are a byte list plus a read position, mirroring an
`std::ifstream` over the archive bytes.  `std::cout` output and the
filesystem are out of scope; each operation is modelled as a function from
the archive byte list (and its arguments) to the bytes or names it writes.
-/

namespace LBR


/-- The sane-length bound from src/lbr.cpp line 29: `1024*1024`. -/

def MAX_SANE_LENGTH : Int := 1024 * 1024

/-- Value of a byte when read through a signed `char`, as the C source does
on the reference platform. -/

def sgnByte (c : Nat) : Int := if c < 128 then (c : Int) else (c : Int) - 256

/-- One byte of `petscii2ascii` (src/lbr.cpp lines 62-81).  The branch for
`0xC1..0xCA` is kept from the source even though a signed `char` can never
reach it (such bytes are caught by the `< 0x20` test). -/

def p2aByte (c : Nat) : Nat :=
  if sgnByte c < 0x20 then 0x3F
  else if 0x61 ≤ sgnByte c ∧ sgnByte c ≤ 0x7A then c - 0x20
  else if 0xC1 ≤ sgnByte c ∧ sgnByte c ≤ 0xCA then c - 0x80
  else if c = 0x5B ∨ c = 0x5D then c
  else if 0x5A < sgnByte c then 0x3F
  else c

/-- One byte of `ascii2petscii` (src/lbr.cpp lines 83-110). -/

def a2pByte (c : Nat) : Nat :=
  if sgnByte c < 0x20 then 0x3F
  else if c = 0x5C then 0x2F
  else if c = 0x5F then 0x20
  else if c = 0x60 then 0x27
  else if 0x61 ≤ c ∧ c ≤ 0x7A then c - 0x20
  else if c = 0x7B then 0x28
  else if c = 0x7D then 0x29
  else if c = 0x7C then 0x2F
  else if 0x7C < sgnByte c then 0x3F
  else c

/-- `petscii2ascii` (src/lbr.cpp lines 62-81); `conv` is the global
`convert_petscii` flag (`--no-conversion` clears it). -/

def petscii2ascii (conv : Bool) (s : List Nat) : List Nat :=
  if conv then s.map p2aByte else s

/-- `ascii2petscii` (src/lbr.cpp lines 83-110). -/

def ascii2petscii (conv : Bool) (s : List Nat) : List Nat :=
  if conv then s.map a2pByte else s

/-- `std::tolower` on a byte, used on extensions in `build_lbr`/`add_lbr`. -/

def tolowerByte (c : Nat) : Nat :=
  if 0x41 ≤ c ∧ c ≤ 0x5A then c + 0x20 else c

/-! ## Decimal rendering and `atoi` -/

/-- Little-endian decimal digits, fuel-indexed so that every definition in
this file reduces by iota (the fuel `n + 1` always suffices since `n / 10`
decreases strictly below 10). -/

def decDigitsRevAux : Nat → Nat → List Nat
  | 0, _ => []
  | fuel + 1, n => if n < 10 then [n] else n % 10 :: decDigitsRevAux fuel (n / 10)

/-- Little-endian decimal digits of `n` (digit values, not characters). -/

def decDigitsRev (n : Nat) : List Nat := decDigitsRevAux (n + 1) n

/-- The decimal character string of `n`, as produced by `operator<<` and
`std::to_string` on a non-negative integer. -/

def decRepr (n : Nat) : List Nat := (decDigitsRev n).reverse.map (· + 48)

/-- `std::to_string` on an `int` (possibly negative). -/

def intRepr (i : Int) : List Nat :=
  if i < 0 then 45 :: decRepr (-i).toNat else decRepr i.toNat

/-- C `isspace` on a byte (the characters `atoi` skips). -/

def isSpaceByte (c : Nat) : Bool := c = 32 ∨ (9 ≤ c ∧ c ≤ 13)

/-- A decimal digit character. -/

def isDigitByte (c : Nat) : Bool := 48 ≤ c ∧ c ≤ 57

/-- Value of the leading digit run of a byte string. -/

def digitsVal (l : List Nat) : Int :=
  (l.takeWhile isDigitByte).foldl (fun (a : Int) (d : Nat) => a * 10 + ((d : Int) - 48)) 0

/-- C `atoi`: skip whitespace, optional sign, leading digit run (overflow is
not modelled; the claims constrain every parsed field below `2^31`). -/

def atoi (l : List Nat) : Int :=
  let r := l.dropWhile isSpaceByte
  if r.head? = some 45 then - digitsVal r.tail
  else if r.head? = some 43 then digitsVal r.tail
  else digitsVal r

/-- Truncation of an `int` value stored into an `unsigned int` field. -/

def u32 (x : Int) : Nat := (x % 4294967296).toNat

/-! ### Lemmas about the decimal machinery -/

/-! ### Lemmas about the codec bytes -/


/-! ## Input streams

An `std::ifstream` over the archive bytes: the byte list plus the read
position (`tellg`). -/

structure RStream where
  data : List Nat
  pos : Nat
deriving DecidableEq

/-- Bytes not yet consumed. -/

def RStream.rest (s : RStream) : List Nat := s.data.drop s.pos

/-- `in.ignore(n)` / skipping `n` delimiter bytes. -/

def RStream.skip (s : RStream) (n : Nat) : RStream := ⟨s.data, s.pos + n⟩

/-- `in.get(buf, 256, delim)`: extract up to 255 bytes, stopping before
`delim`; storing zero bytes sets `failbit`, modelled as `none` (the source
performs no error handling after such a failure, so well-formedness
hypotheses keep parses away from it). -/

def RStream.getField (s : RStream) (delim : Nat) : Option (List Nat × RStream) :=
  let f := (s.rest.takeWhile (fun c => c ≠ delim)).take 255
  if f = [] then none else some (f, ⟨s.data, s.pos + f.length⟩)

/-- Parse the archive header `"DWB" <space> <count> <space> <CR>` exactly as
`list_lbr` / `extract_lbr` / `find_in_lbr` do (signature check, `ignore`,
count field up to `0x20`, two `ignore`s); returns the `atoi` of the count
field and the stream at the first directory record. -/

def parseHeader (data : List Nat) : Option (Int × RStream) :=
  if data.take 3 = [68, 87, 66] then
    match RStream.getField ⟨data, 4⟩ 32 with
    | none => none
    | some (cnt, s) => some (atoi cnt, s.skip 2)
  else none

/-- The raw text fields of one parsed directory record. -/

structure FE where
  name : List Nat
  type : List Nat
  lenf : List Nat
deriving DecidableEq

/-- The `int len = atoi(length)` of a parsed record. -/

def FE.lenI (f : FE) : Int := atoi f.lenf

/-- The record length as stored into the `unsigned int FileEntry::length`. -/

def FE.len (f : FE) : Nat := u32 f.lenI

/-- The bad-length test `len < 0 || len > MAX_SANE_LENGTH` applied to the
parsed (still signed) length. -/

def FE.bad (f : FE) : Prop := f.lenI < 0 ∨ MAX_SANE_LENGTH < f.lenI

instance (f : FE) : Decidable f.bad := by unfold FE.bad; infer_instance

/-- Parse one directory record `name<CR>type<CR><SP>length<SP><CR>`: the
`get`/`ignore` sequence shared verbatim by `list_lbr` (601-613),
`extract_lbr` (219-231) and `find_in_lbr` (317-330). -/

def parseEntry (s : RStream) : Option (FE × RStream) :=
  match s.getField 13 with
  | none => none
  | some (nm, s1) =>
    match (s1.skip 1).getField 13 with
    | none => none
    | some (ty, s2) =>
      match ((s2.skip 1).skip 1).getField 32 with
      | none => none
      | some (lf, s3) => some (⟨nm, ty, lf⟩, (s3.skip 1).skip 1)

/-- Parse `k` directory records in sequence (the `for (int i = 0; i < file_count; ++i)` loops). -/

def parseEntries : Nat → RStream → Option (List FE × RStream)
  | 0, s => some ([], s)
  | k + 1, s =>
    match parseEntry s with
    | none => none
    | some (f, s') =>
      match parseEntries k s' with
      | none => none
      | some (fs, s'') => some (f :: fs, s'')

/-! ## Abstract archive layout

`Ent` is a directory entry as laid out on disk; `archive` produces the
byte-exact serialization of §6 of the format: header, records, payload
region. -/

structure Ent where
  name : List Nat
  type : Nat
  len : Nat
deriving DecidableEq

/-- One directory record, bit-exact: `name<CR><type><CR><SP><len><SP><CR>`. -/

def record (e : Ent) : List Nat :=
  e.name ++ [13, e.type, 13, 32] ++ decRepr e.len ++ [32, 13]

/-- The concatenated directory records. -/

def recordsOf (es : List Ent) : List Nat := (es.map record).flatten

/-- A whole archive: header with declared count `es.length`, directory,
then the payload region `pay`. -/

def archive (es : List Ent) (pay : List Nat) : List Nat :=
  [68, 87, 66, 32] ++ decRepr es.length ++ [32, 13] ++ recordsOf es ++ pay

/-- Size in bytes of one directory record. -/

def recSize (e : Ent) : Nat := e.name.length + (decRepr e.len).length + 6

/-- Size in bytes of the directory records of `es`. -/

def dirSize (es : List Ent) : Nat := (es.map recSize).sum

/-- Size in bytes of the header for declared count `n`. -/

def hdrSize (n : Nat) : Nat := 6 + (decRepr n).length

/-- Stream position at which record `i` begins. -/

def doffAt (es : List Ent) (i : Nat) : Nat := hdrSize es.length + dirSize (es.take i)

/-- Sum of the declared lengths of the entries before index `i`. -/

def payBefore (es : List Ent) (i : Nat) : Nat := ((es.take i).map Ent.len).sum

/-- Sum of all declared lengths. -/

def totalLen (es : List Ent) : Nat := (es.map Ent.len).sum

/-- Position of the first payload byte (end of the directory). -/

def dirEnd (es : List Ent) : Nat := hdrSize es.length + dirSize es

/-- Well-formedness of one directory entry: a nonempty name of at most 255
bytes without the `CR` delimiter, a type byte that is not `CR`, and a
length whose decimal form survives `atoi` as an `int`. -/

def WFEnt (e : Ent) : Prop :=
  e.name ≠ [] ∧ e.name.length ≤ 255 ∧ 13 ∉ e.name ∧ e.type ≠ 13 ∧ (e.len : Int) < 2 ^ 31

instance (e : Ent) : Decidable (WFEnt e) := by unfold WFEnt; infer_instance

/-- Well-formedness of a directory: every entry well-formed and the declared
count an `int`. -/

def WFDir (es : List Ent) : Prop :=
  (∀ e ∈ es, WFEnt e) ∧ (es.length : Int) < 2 ^ 31

instance (es : List Ent) : Decidable (WFDir es) := by unfold WFDir; infer_instance

/-- The record fields of an entry, as `parseEntry` returns them. -/

def entFE (e : Ent) : FE := ⟨e.name, [e.type], decRepr e.len⟩

/-! ## Parsing a well-formed directory -/

/-! ## The entry locator `find_in_lbr` (src/lbr.cpp lines 300-351) -/

/-- The per-record state update of the `find_in_lbr` scan: take the entry as
the match if none is held yet, its decoded name equals the target, and it is
not a `D`-typed record with `skipDeleted` set (`type[0] != 'D' ||
!skip_deleted`); afterwards, if still unmatched, add the declared length to
the running payload-offset accumulator. -/

def findStep (conv skipDel : Bool) (target : List Nat) (doff : Nat) (f : FE)
    (found : Option (Int × Nat)) (coff : Int) : Option (Int × Nat) × Int :=
  let l := f.lenI
  let found' :=
    if found = none ∧ petscii2ascii conv f.name = target ∧
        (f.type.headD 0 ≠ 68 ∨ skipDel = false)
    then some (l, doff) else found
  let coff' := if found' = none then coff + l else coff
  (found', coff')

/-- The directory scan of `find_in_lbr`: for each of the remaining records,
note `tellg` as the record offset, parse the fields, apply `findStep`, and
abort (`return -1`) on any out-of-range length.  Returns the final
`(found, coff, stream)` state. -/

def findLoop (conv skipDel : Bool) (target : List Nat) :
    Nat → RStream → Option (Int × Nat) → Int → Option (Option (Int × Nat) × Int × RStream)
  | 0, s, found, coff => some (found, coff, s)
  | k + 1, s, found, coff =>
    match parseEntry s with
    | none => none
    | some (f, s') =>
      let st := findStep conv skipDel target s.pos f found coff
      if f.lenI < 0 ∨ MAX_SANE_LENGTH < f.lenI then none
      else findLoop conv skipDel target k s' st.1 st.2

/-- `find_in_lbr`: parse the header, scan the directory, and on success
return `(length, directoryOffset, payloadOffset)` with
`payloadOffset = tellg-after-directory + coff`. -/

def find_in_lbr (conv skipDel : Bool) (data target : List Nat) : Option (Int × Nat × Int) :=
  match parseHeader data with
  | none => none
  | some (cnt, s) =>
    match findLoop conv skipDel target cnt.toNat s none 0 with
    | none => none
    | some (found, coff, s') =>
      match found with
      | some (l, doff) => some (l, doff, (s'.pos : Int) + coff)
      | none => none

/-- An entry the locator accepts for `target`: decoded name matches, and it
is not a type-`D` record rejected by `skipDeleted`. -/

def entMatches (conv skipDel : Bool) (target : List Nat) (e : Ent) : Prop :=
  petscii2ascii conv e.name = target ∧ (e.type ≠ 68 ∨ skipDel = false)

instance (conv skipDel : Bool) (target : List Nat) (e : Ent) :
    Decidable (entMatches conv skipDel target e) := by unfold entMatches; infer_instance

/-- Every length in the directory is inside the sane bound. -/

def SaneDir (es : List Ent) : Prop := ∀ e ∈ es, (e.len : Int) ≤ MAX_SANE_LENGTH

instance (es : List Ent) : Decidable (SaneDir es) := by unfold SaneDir; infer_instance

/-- Default entry used with `List.getD`. -/

def dEnt : Ent := ⟨[], 0, 0⟩


/-! ## The stream-rewriting mutators (src/lbr.cpp lines 353-462)

`delete_lbr` and `chtype_lbr` re-open the archive, copy bytes into a
temporary file around the edit point, and replace the original contents.
Their copy loops are modelled byte-exactly. -/

/-- Loop `while (in.get(c) && in.tellg() < limit) fputc(c, tmpf);` followed
by one unconditional `fputc(c, tmpf)`: returns the bytes written by the
loop, the final read position, and the last byte read (written afterwards
by the trailing `fputc`).  When the very first `get` fails the C code
writes an indeterminate `char`; that case, unreachable under the
hypotheses used here, is modelled as writing nothing. -/

def copyToAux : List Nat → Nat → Nat → List Nat × Nat × Option Nat
  | [], pos, _ => ([], pos, none)
  | c :: cs, pos, limit =>
    if pos + 1 < limit then
      let r := copyToAux cs (pos + 1) limit
      (c :: r.1, r.2)
    else ([], pos + 1, some c)

/-- All bytes written by the copy-up-to-`limit` loop (including the trailing
`fputc`), and the resulting stream position. -/

def copyTo (data : List Nat) (pos limit : Nat) : List Nat × Nat :=
  let r := copyToAux (data.drop pos) pos limit
  (r.1 ++ r.2.2.toList, r.2.1)

/-- Loop `while (in.get(c) && in.tellg() <= limit) fputc(c, tmpf);`. -/

def copyThruAux : List Nat → Nat → Nat → List Nat × Nat
  | [], pos, _ => ([], pos)
  | c :: cs, pos, limit =>
    if pos + 1 ≤ limit then
      let r := copyThruAux cs (pos + 1) limit
      (c :: r.1, r.2)
    else ([], pos + 1)

/-- Bytes written by the copy-through-`limit` loop, and the final position. -/

def copyThru (data : List Nat) (pos limit : Nat) : List Nat × Nat :=
  copyThruAux (data.drop pos) pos limit

/-- Loop `while (in.get(c) && c != 0x0D) {}`: number of bytes consumed,
including the terminating `CR` when present. -/

def skipToCR : List Nat → Nat
  | [] => 0
  | c :: cs => if c = 13 then 1 else skipToCR cs + 1

/-- `delete_lbr` (src/lbr.cpp lines 353-418).  `wipe = false` keeps the
directory record as a `D`-typed, zero-length tombstone; `wipe = true`
removes it and decrements the declared count.  Returns the bytes written
back over the archive, or `none` when `find_in_lbr` fails. -/

def delete_lbr (conv skipDel wipe : Bool) (data target : List Nat) : Option (List Nat) :=
  match find_in_lbr conv skipDel data target with
  | none => none
  | some (length, diroff, offset) =>
    let sig := data.take 3
    let hdr : List Nat × Nat :=
      if wipe then
        let c1 := (data.drop 3).take 1
        let cnt := ((data.drop 4).takeWhile (fun c => c ≠ 32)).take 255
        let c2 := (data.drop (4 + cnt.length)).take 2
        (c1 ++ intRepr (atoi cnt - 1) ++ c2, 4 + cnt.length + 2)
      else ([], 3)
    let w1 := copyTo data hdr.2 diroff
    let p1 := w1.2 + skipToCR (data.drop w1.2)
    let p2 := p1 + skipToCR (data.drop p1)
    let p3 := p2 + skipToCR (data.drop p2)
    let recW : List Nat :=
      if wipe then []
      else (data.drop w1.2).takeWhile (fun c => c ≠ 13) ++ [13, 68, 13, 32, 48, 32, 13]
    let w2 := copyThru data p3 offset.toNat
    some (sig ++ hdr.1 ++ w1.1 ++ recW ++ w2.1 ++ data.drop (offset + length).toNat)

/-- `chtype_lbr` (src/lbr.cpp lines 420-462): copy up to the target record,
copy its name, emit the encoded new type between the `CR`s, skip the old
type field, and copy the remainder verbatim. -/

def chtype_lbr (conv skipDel : Bool) (data target newType : List Nat) : Option (List Nat) :=
  match find_in_lbr conv skipDel data target with
  | none => none
  | some (_, diroff, _) =>
    let sig := data.take 3
    let w1 := copyTo data 3 diroff
    let nm := (data.drop w1.2).takeWhile (fun c => c ≠ 13)
    let p1 := w1.2 + skipToCR (data.drop w1.2)
    let p2 := p1 + skipToCR (data.drop p1)
    some (sig ++ w1.1 ++ nm ++ [13] ++ ascii2petscii conv newType ++ [13] ++ data.drop p2)

/-! ### Closed forms for the copy loops -/

/-! ### Layout facts about well-formed archives -/

/-! ### Record positions for the mutator copy loops -/

/-- The expected output of `delete_lbr` in keep-entry mode on target `i`:
archive bytes up to the record, the rewritten tombstone record (same name,
type `D`, length `0`), the rest of the directory and the payloads before
the target, then everything after the deleted payload. -/

def deleteKeepExpected (es : List Ent) (pay : List Nat) (i : Nat) : List Nat :=
  (archive es pay).take (doffAt es i)
    ++ (es.getD i dEnt).name ++ [13, 68, 13, 32, 48, 32, 13]
    ++ ((archive es pay).drop (doffAt es i + recSize (es.getD i dEnt))).take
        (dirEnd es + payBefore es i - (doffAt es i + recSize (es.getD i dEnt)))
    ++ (archive es pay).drop (dirEnd es + payBefore es i + (es.getD i dEnt).len)

/-- The expected output of `delete_lbr` in wipe mode on target `i`: header
with decremented count, the directory up to the target record — except that
when the target is the very first record the copy loop
`while (in.get(c) && in.tellg() < dir_offset)` has already read one byte
before its first test, and the trailing `fputc` writes that stray first
name byte — then the rest of the directory and the payloads before the
target, then everything after the wiped payload. -/

def deleteWipeExpected (es : List Ent) (pay : List Nat) (i : Nat) : List Nat :=
  [68, 87, 66, 32] ++ decRepr (es.length - 1) ++ [32, 13]
    ++ (if i = 0 then ((archive es pay).drop (hdrSize es.length)).take 1
        else ((archive es pay).drop (hdrSize es.length)).take
              (doffAt es i - hdrSize es.length))
    ++ ((archive es pay).drop (doffAt es i + recSize (es.getD i dEnt))).take
        (dirEnd es + payBefore es i - (doffAt es i + recSize (es.getD i dEnt)))
    ++ (archive es pay).drop (dirEnd es + payBefore es i + (es.getD i dEnt).len)

/-! ## The lister `list_lbr` (src/lbr.cpp lines 581-637) -/

/-- `std::string::compare(...) < 0`: lexicographic byte comparison (shorter
prefix compares less). -/

def lexLt : List Nat → List Nat → Bool
  | [], [] => false
  | [], _ :: _ => true
  | _ :: _, [] => false
  | a :: as2, b :: bs => if a < b then true else if b < a then false else lexLt as2 bs

/-- `num_cmp` (src/lbr.cpp lines 112-118): order names by length first,
then lexicographically. -/

def num_cmp (a b : List Nat) : Bool :=
  if a.length < b.length then true
  else if b.length < a.length then false
  else lexLt a b

/-- Insertion into a sorted list, for modelling `std::sort` (whose result
is a sequence sorted under the comparator; `num_cmp`-equivalent elements
have equal name strings, so any sorted order agrees on the name sequence). -/

def insertBy {α : Type} (lt : α → α → Bool) (x : α) : List α → List α
  | [] => [x]
  | y :: ys => if lt x y then x :: y :: ys else y :: insertBy lt x ys

/-- Insertion sort by `lt`, modelling `std::sort(..., num_cmp)`. -/

def sortBy {α : Type} (lt : α → α → Bool) : List α → List α
  | [] => []
  | x :: xs => insertBy lt x (sortBy lt xs)

/-- One rendered line `name (type) length` (line 628), with the
verbose-only `" (bad)"` flag (lines 629-632).  The field `length` is an
`unsigned int`, so the `f.length < 0` comparison from the source is kept
but vacuous, and lengths print as unsigned decimals. -/

def renderLine (conv verbose : Bool) (f : FE) : List Nat :=
  petscii2ascii conv f.name ++ [32, 40] ++ petscii2ascii conv f.type ++ [41, 32]
    ++ decRepr f.len
    ++ (if f.len < 0 ∨ MAX_SANE_LENGTH.toNat < f.len then
          (if verbose then [32, 40, 98, 97, 100, 41] else [])
        else [])

/-- `list_lbr`: parse header and directory, optionally sort with `num_cmp`,
then render each entry; a `D`-typed entry under `skip_deleted` produces
only a verbose `[deleted]` line. -/

def list_lbr (conv verbose skipDel nsort : Bool) (data : List Nat) :
    Option (List (List Nat)) :=
  match parseHeader data with
  | none => none
  | some (cnt, s) =>
    match parseEntries cnt.toNat s with
    | none => none
    | some (fs, _) =>
      let fs2 := if nsort then sortBy (fun a b => num_cmp a.name b.name) fs else fs
      some (fs2.flatMap (fun f =>
        if f.type = [68] ∧ skipDel then
          (if verbose then [[91, 100, 101, 108, 101, 116, 101, 100, 93]] else [])
        else [renderLine conv verbose f]))

/-! ## The builder `build_lbr` (src/lbr.cpp lines 120-201) -/

/-- Index of the last occurrence of `x` (`std::string::find_last_of`). -/

def lastIndexOf (x : Nat) : List Nat → Option Nat
  | [] => none
  | c :: cs =>
    match lastIndexOf x cs with
    | some i => some (i + 1)
    | none => if c = x then some 0 else none

/-- `std::filesystem::path::extension()` on a plain filename: the suffix
from the last period, except for `.`, `..` and a period in first position
(dotfiles have no extension). -/

def pathExtension (nm : List Nat) : List Nat :=
  if nm = [46] ∨ nm = [46, 46] then []
  else
    match lastIndexOf 46 nm with
    | none => []
    | some 0 => []
    | some i => nm.drop i

/-- A source file handed to the builder: the filename component of its
path, and its bytes (`file_size` is the byte count; reading the file is
filesystem-external and assumed to return these bytes). -/

structure SrcFile where
  name : List Nat
  content : List Nat
deriving DecidableEq

/-- Default `SrcFile` for `List.getD`. -/

def deff : SrcFile := ⟨[], []⟩

/-- The type byte the builder emits (lines 175-186): `D` for a zero-length
file, else `P`/`U`/`R`/`S` from the lowercased extension. -/

def typeByte (f : SrcFile) : Nat :=
  if f.content.length = 0 then 68
  else
    let ext := (pathExtension f.name).map tolowerByte
    if ext = [46, 112, 114, 103] then 80
    else if ext = [46, 117, 115, 114] then 85
    else if ext = [46, 114, 101, 108] then 82
    else 83

/-- The name written into a record: truncated at the last period when
`--strip` is set (lines 166-171, `find_last_of`). -/

def stripName (strip : Bool) (nm : List Nat) : List Nat :=
  if strip then
    match lastIndexOf 46 nm with
    | none => nm
    | some i => nm.take i
  else nm

/-- One directory record as `build_lbr` writes it (lines 160-189). -/

def buildRecord (conv strip : Bool) (f : SrcFile) : List Nat :=
  ascii2petscii conv (stripName strip f.name) ++ [13, typeByte f, 13, 32]
    ++ decRepr f.content.length ++ [32, 13]

/-- The bytes `build_lbr` writes once the entry list is fixed (lines
156-198): header, records, then the contents of every non-empty file. -/

def emitLBR (conv strip : Bool) (files : List SrcFile) : List Nat :=
  [68, 87, 66, 32] ++ decRepr files.length ++ [32, 13]
    ++ (files.map (buildRecord conv strip)).flatten
    ++ ((files.filter (fun f => f.content.length ≠ 0)).map SrcFile.content).flatten

/-- `std::vector::insert(begin() + k, x)`; an index past the end is
undefined behaviour in C++ and modelled as appending. -/

def insertAt : Nat → SrcFile → List SrcFile → List SrcFile
  | 0, x, l => x :: l
  | _ + 1, x, [] => [x]
  | k + 1, x, c :: cs => c :: insertAt k x cs

/-- The inner padding loop (lines 146-152): insert zero-length filler
entries named by the running integer until it reaches the current entry
value.  The loop runs exactly `(cur - i)` iterations, which is the fuel it
is given. -/

def padInner (first : Int) : Nat → List SrcFile → Int → Int → List SrcFile × Int
  | 0, fs, i, _ => (fs, i)
  | fuel + 1, fs, i, cur =>
    if i < cur then
      padInner first fuel (insertAt (i - first).toNat ⟨intRepr i, []⟩ fs) (i + 1) cur
    else (fs, i)

/-- The outer padding loop (lines 143-153).  The index strictly increases
each iteration, so `(last - i)` bounds the iteration count and is the fuel. -/

def padOuter (first last : Int) : Nat → List SrcFile → Int → List SrcFile
  | 0, fs, _ => fs
  | fuel + 1, fs, i =>
    if i < last then
      let cur := atoi ((fs.getD (i - first).toNat deff).name)
      let st := padInner first (cur - i).toNat fs i cur
      padOuter first last fuel st.1 (st.2 + 1)
    else fs

/-- `build_lbr` (lines 120-201): collect entries, optionally sort with
`num_cmp`, optionally pad.  The padding check `last <= first` returns
failure (line 139-141, modelled `none`) before `std::ofstream out` is even
opened (line 156), so a failed build writes no output bytes. -/

def build_lbr (conv : Bool) (input : List SrcFile) (nsort npad strip : Bool) :
    Option (List Nat) :=
  let files := if nsort then sortBy (fun a b => num_cmp a.name b.name) input else input
  if nsort ∧ npad then
    let first := atoi (files.headD deff).name
    let last := atoi (files.getLastD deff).name
    if last ≤ first then none
    else some (emitLBR conv strip (padOuter first last (last - first).toNat files first))
  else some (emitLBR conv strip files)

/-! ## The extractor `extract_lbr` (src/lbr.cpp lines 203-298) -/

/-- The suffix appended under `--add-extension` (lines 277-286). -/

def extSuffix (addExt : Bool) (type : List Nat) : List Nat :=
  if addExt then
    if type = [80] then [46, 112, 114, 103]
    else if type = [83] then [46, 115, 101, 113]
    else if type = [85] then [46, 117, 115, 114]
    else if type = [82] then [46, 114, 101, 108]
    else []
  else []

/-- The extraction loop (lines 243-294) over the parsed entries, reading
payload bytes from position `pos` of the archive: a bad-length entry dumps
the entire remaining stream into one file named by its raw, undecoded name
and breaks; a zero-length entry is skipped; a `D` entry under
`skip_deleted` has its payload skipped; with a non-empty target list a
non-matching entry has its payload skipped by `in.ignore` — but, the
`continue` being absent from the source, the entry is then still extracted
from whatever bytes follow.  Returns `(output file name, bytes written)`
pairs.  (The source also leaves `FileEntry::bad_length` uninitialized for
in-range lengths; it is modelled as false, the value every sane run
observes.) -/

def extractLoop (conv skipDel addExt : Bool) (targets : List (List Nat))
    (data : List Nat) : List FE → Nat → List (List Nat × List Nat)
  | [], _ => []
  | f :: fs, pos =>
    if f.bad then [(f.name, data.drop pos)]
    else if f.len = 0 then extractLoop conv skipDel addExt targets data fs pos
    else if f.type = [68] ∧ skipDel then
      extractLoop conv skipDel addExt targets data fs (pos + f.len)
    else
      let pos1 := if targets ≠ [] ∧ petscii2ascii conv f.name ∉ targets
        then pos + f.len else pos
      (petscii2ascii conv f.name ++ extSuffix addExt f.type,
        (data.drop pos1).take f.len) ::
        extractLoop conv skipDel addExt targets data fs (pos1 + f.len)

/-- `extract_lbr`: check the signature, parse the directory, then run the
extraction loop from the end of the directory. -/

def extract_lbr (conv skipDel addExt : Bool) (targets : List (List Nat))
    (data : List Nat) : Option (List (List Nat × List Nat)) :=
  match parseHeader data with
  | none => none
  | some (cnt, s) =>
    match parseEntries cnt.toNat s with
    | none => none
    | some (fs, s2) => some (extractLoop conv skipDel addExt targets data fs s2.pos)

/-- Payload bytes one parsed entry makes the stream consume in the
extraction loop (`in.ignore` and/or `in.read`). -/

def consumed (conv skipDel : Bool) (targets : List (List Nat)) (f : FE) : Nat :=
  if f.len = 0 then 0
  else if f.type = [68] ∧ skipDel then f.len
  else if targets ≠ [] ∧ petscii2ascii conv f.name ∉ targets then 2 * f.len
  else f.len

/-- Total stream consumption of a list of parsed entries. -/

def consumedSum (conv skipDel : Bool) (targets : List (List Nat)) (fs : List FE) : Nat :=
  (fs.map (consumed conv skipDel targets)).sum

/-! ### The built archive is a well-formed archive -/

/-- The directory entry that `build_lbr` lays down for one source file. -/

def toEnt (conv strip : Bool) (f : SrcFile) : Ent :=
  ⟨ascii2petscii conv (stripName strip f.name), typeByte f, f.content.length⟩

/-- The payload region `build_lbr` writes: all non-empty contents in order. -/

def payloadOf (files : List SrcFile) : List Nat :=
  ((files.filter (fun f => f.content.length ≠ 0)).map SrcFile.content).flatten




















/-! ## Theorems -/

theorem decDigitsRevAux_fuel :
    ∀ (f1 : Nat) (n : Nat) (f2 : Nat), n < f1 → n < f2 →
      decDigitsRevAux f1 n = decDigitsRevAux f2 n := by
  intro f1
  induction f1 with
  | zero => intro n f2 h; omega
  | succ f1 ih =>
    intro n f2 h1 h2
    cases f2 with
    | zero => omega
    | succ f2 =>
      rw [decDigitsRevAux, decDigitsRevAux]
      by_cases h : n < 10
      · rw [if_pos h, if_pos h]
      · rw [if_neg h, if_neg h]
        have hd : n / 10 < n := Nat.div_lt_self (by omega) (by omega)
        rw [ih (n / 10) f2 (by omega) (by omega)]

theorem decDigitsRev_eq (n : Nat) :
    decDigitsRev n = if n < 10 then [n] else n % 10 :: decDigitsRev (n / 10) := by
  rw [decDigitsRev, decDigitsRevAux]
  by_cases h : n < 10
  · rw [if_pos h, if_pos h]
  · rw [if_neg h, if_neg h, decDigitsRev]
    have hd : n / 10 < n := Nat.div_lt_self (by omega) (by omega)
    rw [decDigitsRevAux_fuel n (n / 10) (n / 10 + 1) (by omega) (by omega)]

theorem decDigitsRev_lt_ten (n : Nat) : ∀ d ∈ decDigitsRev n, d < 10 := by
  induction n using Nat.strong_induction_on with
  | _ n ih =>
    rw [decDigitsRev_eq]
    split
    · intro d hd; simp only [List.mem_singleton] at hd; omega
    · intro d hd
      rcases List.mem_cons.1 hd with h | h
      · omega
      · exact ih (n / 10) (Nat.div_lt_self (by omega) (by omega)) d h

theorem decDigitsRev_ne_nil (n : Nat) : decDigitsRev n ≠ [] := by
  rw [decDigitsRev_eq]; split <;> simp

theorem decRepr_ne_nil (n : Nat) : decRepr n ≠ [] := by
  have := decDigitsRev_ne_nil n
  simp only [decRepr, ne_eq, List.map_eq_nil_iff, List.reverse_eq_nil_iff]
  exact this

theorem decRepr_digits (n : Nat) : ∀ d ∈ decRepr n, 48 ≤ d ∧ d ≤ 57 := by
  intro d hd
  simp only [decRepr, List.mem_map, List.mem_reverse] at hd
  obtain ⟨m, hm, rfl⟩ := hd
  have := decDigitsRev_lt_ten n m hm
  omega

theorem decRepr_of_lt_ten {n : Nat} (h : n < 10) : decRepr n = [n + 48] := by
  rw [decRepr, decDigitsRev_eq]; simp [h]

theorem decRepr_of_ge_ten {n : Nat} (h : 10 ≤ n) :
    decRepr n = decRepr (n / 10) ++ [n % 10 + 48] := by
  conv_lhs => rw [decRepr, decDigitsRev_eq]
  rw [if_neg (by omega)]
  simp [decRepr]

theorem length_decDigitsRev_le {k n : Nat} (h : n < 10 ^ k) :
    (decDigitsRev n).length ≤ k + 1 := by
  induction k generalizing n with
  | zero =>
    have : n = 0 := by omega
    subst this; rw [decDigitsRev_eq]; simp
  | succ k ih =>
    rw [decDigitsRev_eq]
    split
    · simp
    · have hdiv : n / 10 < 10 ^ k := by
        rw [Nat.div_lt_iff_lt_mul (by omega)]
        calc n < 10 ^ (k + 1) := h
        _ = 10 ^ k * 10 := by ring
      simpa using Nat.succ_le_succ (ih hdiv)

theorem length_decRepr_le {k n : Nat} (h : n < 10 ^ k) : (decRepr n).length ≤ k + 1 := by
  simpa [decRepr] using length_decDigitsRev_le h

theorem takeWhile_all {p : Nat → Bool} :
    ∀ {l : List Nat}, (∀ c ∈ l, p c = true) → l.takeWhile p = l := by
  intro l h
  induction l with
  | nil => rfl
  | cons a t ih =>
    rw [List.takeWhile_cons, h a (by simp)]
    simp [ih fun c hc => h c (by simp [hc])]

theorem digitsVal_all_digits {l : List Nat} (h : ∀ c ∈ l, isDigitByte c = true) :
    digitsVal l = l.foldl (fun (a : Int) (d : Nat) => a * 10 + ((d : Int) - 48)) 0 := by
  rw [digitsVal, takeWhile_all h]

theorem foldl_digits_decRepr (n : Nat) :
    (decRepr n).foldl (fun (a : Int) (d : Nat) => a * 10 + ((d : Int) - 48)) 0 = n := by
  induction n using Nat.strong_induction_on with
  | _ n ih =>
    by_cases h : n < 10
    · rw [decRepr_of_lt_ten h]
      simp only [List.foldl_cons, List.foldl_nil]
      push_cast; ring
    · rw [decRepr_of_ge_ten (by omega), List.foldl_append]
      rw [ih (n / 10) (Nat.div_lt_self (by omega) (by omega))]
      simp only [List.foldl_cons, List.foldl_nil]
      have := Nat.div_add_mod n 10
      push_cast
      omega

theorem digitsVal_decRepr (n : Nat) : digitsVal (decRepr n) = n := by
  rw [digitsVal_all_digits, foldl_digits_decRepr]
  intro c hc
  have := decRepr_digits n c hc
  simp [isDigitByte]; omega

theorem dropWhile_decRepr (n : Nat) : (decRepr n).dropWhile isSpaceByte = decRepr n := by
  rcases h : decRepr n with _ | ⟨d, t⟩
  · rfl
  · have hd : 48 ≤ d ∧ d ≤ 57 := decRepr_digits n d (by rw [h]; simp)
    rw [List.dropWhile_cons]
    have : isSpaceByte d = false := by simp [isSpaceByte]; omega
    simp [this]

theorem atoi_decRepr (n : Nat) : atoi (decRepr n) = n := by
  rw [atoi]
  simp only [dropWhile_decRepr]
  rcases h : decRepr n with _ | ⟨d, t⟩
  · exact absurd h (decRepr_ne_nil n)
  · have hd : 48 ≤ d ∧ d ≤ 57 := decRepr_digits n d (by rw [h]; simp)
    rw [← h]
    have h45 : (decRepr n).head? ≠ some 45 := by rw [h]; simp; omega
    have h43 : (decRepr n).head? ≠ some 43 := by rw [h]; simp; omega
    simp only [if_neg h45, if_neg h43]
    exact digitsVal_decRepr n

theorem intRepr_nonneg {i : Int} (h : 0 ≤ i) : intRepr i = decRepr i.toNat := by
  rw [intRepr, if_neg (by omega)]

theorem a2pByte_ge_32 (c : Nat) : 32 ≤ a2pByte c := by
  rcases Nat.lt_or_ge c 128 with hc | hc
  · have hs : sgnByte c = (c : Int) := if_pos hc
    simp only [a2pByte, hs]
    split_ifs <;> omega
  · have hs : sgnByte c = (c : Int) - 256 := if_neg (by omega)
    simp only [a2pByte, hs]
    split_ifs <;> omega

theorem a2pByte_ne_13 (c : Nat) : a2pByte c ≠ 13 := by
  have := a2pByte_ge_32 c; omega

theorem length_ascii2petscii (conv : Bool) (s : List Nat) :
    (ascii2petscii conv s).length = s.length := by
  rw [ascii2petscii]; split <;> simp

theorem mem_ascii2petscii_true {s : List Nat} {c : Nat} (h : c ∈ ascii2petscii true s) :
    32 ≤ c := by
  simp only [ascii2petscii, if_pos, List.mem_map] at h
  obtain ⟨a, _, rfl⟩ := h
  exact a2pByte_ge_32 a

/-- The codec round-trip is the identity on every byte in `[0x20, 0x5D]`
other than the backslash `0x5C`; this is the exact stable subset. -/
theorem roundtrip_byte : ∀ c < 94, 32 ≤ c → c ≠ 92 → p2aByte (a2pByte c) = c := by
  decide

theorem takeWhile_field {X : List Nat} (d : Nat) (r : List Nat) (hd : d ∉ X) :
    (X ++ d :: r).takeWhile (fun c => c ≠ d) = X := by
  induction X with
  | nil => simp [List.takeWhile_cons]
  | cons a t ih =>
    have ha : a ≠ d := by rintro rfl; exact hd (by simp)
    simp only [List.cons_append, List.takeWhile_cons]
    rw [if_pos (by simpa using ha), ih (fun h => hd (by simp [h]))]

theorem rest_mk (data : List Nat) (pos : Nat) :
    RStream.rest ⟨data, pos⟩ = data.drop pos := rfl

theorem rest_advance {s : RStream} {X r : List Nat} (h : s.rest = X ++ r) :
    RStream.rest ⟨s.data, s.pos + X.length⟩ = r := by
  rw [rest_mk, ← List.drop_drop]
  rw [show s.data.drop s.pos = X ++ r from h, List.drop_left]

theorem getField_spec {s : RStream} {X r : List Nat} {d : Nat}
    (hrest : s.rest = X ++ d :: r) (hne : X ≠ []) (hlen : X.length ≤ 255) (hd : d ∉ X) :
    s.getField d = some (X, ⟨s.data, s.pos + X.length⟩) := by
  rw [RStream.getField, hrest, takeWhile_field d r hd, List.take_of_length_le hlen]
  simp [hne]

theorem length_decRepr_le_255 {n : Nat} (h : (n : Int) < 2 ^ 31) :
    (decRepr n).length ≤ 255 := by
  have h10 : n < 10 ^ 10 := by omega
  have := length_decRepr_le h10
  omega

theorem sp_not_mem_decRepr (n : Nat) : 32 ∉ decRepr n := by
  intro h
  have := decRepr_digits n 32 h
  omega

theorem cr_not_mem_decRepr (n : Nat) : 13 ∉ decRepr n := by
  intro h
  have := decRepr_digits n 13 h
  omega

theorem parseEntry_spec {s : RStream} {e : Ent} {r : List Nat}
    (hwf : WFEnt e) (hrest : s.rest = record e ++ r) :
    parseEntry s = some (entFE e, ⟨s.data, s.pos + recSize e⟩) := by
  obtain ⟨hne, hlen, hcr, hty, hlen31⟩ := hwf
  have h1 : s.rest = e.name ++ 13 :: (e.type :: 13 :: 32 :: (decRepr e.len ++ 32 :: 13 :: r)) := by
    rw [hrest, record]; simp
  have g1 := getField_spec h1 hne hlen hcr
  have h2 : RStream.rest ⟨s.data, s.pos + e.name.length + 1⟩ =
      e.type :: 13 :: 32 :: (decRepr e.len ++ 32 :: 13 :: r) := by
    have := rest_advance (X := e.name ++ [13])
      (r := e.type :: 13 :: 32 :: (decRepr e.len ++ 32 :: 13 :: r)) (by rw [h1]; simp)
    simpa [Nat.add_assoc] using this
  have h2' : RStream.rest ⟨s.data, s.pos + e.name.length + 1⟩ =
      [e.type] ++ 13 :: (32 :: (decRepr e.len ++ 32 :: 13 :: r)) := by simpa using h2
  have g2 := getField_spec (s := ⟨s.data, s.pos + e.name.length + 1⟩) h2'
    (by simp) (by simp) (by simpa using Ne.symm hty)
  have h3 : RStream.rest ⟨s.data, s.pos + e.name.length + 1 + 1 + 1 + 1⟩ =
      decRepr e.len ++ 32 :: (13 :: r) := by
    have := rest_advance (s := ⟨s.data, s.pos + e.name.length + 1⟩)
      (X := [e.type, 13, 32]) (r := decRepr e.len ++ 32 :: 13 :: r) (by rw [h2]; simp)
    simpa [Nat.add_assoc] using this
  have g3 := getField_spec (s := ⟨s.data, s.pos + e.name.length + 1 + 1 + 1 + 1⟩) h3
    (decRepr_ne_nil e.len) (length_decRepr_le_255 hlen31) (sp_not_mem_decRepr e.len)
  rw [parseEntry, g1]
  simp only [RStream.skip]
  rw [g2]
  simp only [RStream.skip, List.length_singleton]
  rw [g3]
  simp only [RStream.skip, entFE, recSize, Option.some.injEq, Prod.mk.injEq,
    RStream.mk.injEq, FE.mk.injEq, true_and, and_true]
  all_goals omega

theorem recordsOf_cons (e : Ent) (es : List Ent) :
    recordsOf (e :: es) = record e ++ recordsOf es := by
  simp [recordsOf]

theorem dirSize_cons (e : Ent) (es : List Ent) :
    dirSize (e :: es) = recSize e + dirSize es := by
  simp [dirSize]

theorem parseEntries_spec :
    ∀ (es : List Ent) (s : RStream) (r : List Nat), (∀ e ∈ es, WFEnt e) →
      s.rest = recordsOf es ++ r →
      parseEntries es.length s = some (es.map entFE, ⟨s.data, s.pos + dirSize es⟩) := by
  intro es
  induction es with
  | nil =>
    intro s r _ _
    simp [parseEntries, dirSize]
  | cons e es ih =>
    intro s r hwf hrest
    have hrest1 : s.rest = record e ++ (recordsOf es ++ r) := by
      rw [hrest, recordsOf_cons, List.append_assoc]
    have g := parseEntry_spec (hwf e (by simp)) hrest1
    have hrest2 : RStream.rest ⟨s.data, s.pos + recSize e⟩ = recordsOf es ++ r := by
      have hx : s.rest = record e ++ (recordsOf es ++ r) := hrest1
      have hlr : (record e).length = recSize e := by
        simp [record, recSize]
        omega
      have := rest_advance (X := record e) (r := recordsOf es ++ r) hx
      rwa [hlr] at this
    have gs := ih ⟨s.data, s.pos + recSize e⟩ r (fun x hx => hwf x (by simp [hx])) hrest2
    simp only [List.length_cons, parseEntries, g, gs, List.map_cons]
    congr 3
    rw [dirSize_cons]
    omega

theorem drop_archive_hdr (es : List Ent) (pay : List Nat) :
    (archive es pay).drop (hdrSize es.length) = recordsOf es ++ pay := by
  rw [archive, hdrSize]
  have : [68, 87, 66, 32] ++ decRepr es.length ++ [32, 13] ++ recordsOf es ++ pay =
      ([68, 87, 66, 32] ++ decRepr es.length ++ [32, 13]) ++ (recordsOf es ++ pay) := by
    simp
  rw [this]
  have hl : ([68, 87, 66, 32] ++ decRepr es.length ++ [32, 13]).length =
      6 + (decRepr es.length).length := by simp; omega
  rw [← hl, List.drop_left]

theorem parseHeader_spec {es : List Ent} {pay : List Nat}
    (hn : (es.length : Int) < 2 ^ 31) :
    parseHeader (archive es pay) = some ((es.length : Int), ⟨archive es pay, hdrSize es.length⟩) := by
  have htake : (archive es pay).take 3 = [68, 87, 66] := by
    rw [archive]
    rw [show [68, 87, 66, 32] ++ decRepr es.length ++ [32, 13] ++ recordsOf es ++ pay =
      [68, 87, 66] ++ (32 :: (decRepr es.length ++ [32, 13] ++ recordsOf es ++ pay)) by simp]
    rw [List.take_append_of_le_length (by simp)]
    simp
  have hrest : RStream.rest ⟨archive es pay, 4⟩ =
      decRepr es.length ++ 32 :: (13 :: (recordsOf es ++ pay)) := by
    rw [rest_mk, archive]
    rw [show [68, 87, 66, 32] ++ decRepr es.length ++ [32, 13] ++ recordsOf es ++ pay =
      [68, 87, 66, 32] ++ (decRepr es.length ++ 32 :: (13 :: (recordsOf es ++ pay))) by simp]
    rw [show (4 : Nat) = ([68, 87, 66, 32] : List Nat).length by simp, List.drop_left]
  have g := getField_spec (s := ⟨archive es pay, 4⟩) hrest (decRepr_ne_nil _)
    (length_decRepr_le_255 hn) (sp_not_mem_decRepr _)
  rw [parseHeader, if_pos htake, g]
  simp only [RStream.skip, atoi_decRepr, hdrSize, Option.some.injEq, Prod.mk.injEq,
    RStream.mk.injEq, true_and, and_true]
  omega

theorem entFE_lenI (e : Ent) : (entFE e).lenI = (e.len : Int) := by
  simp [entFE, FE.lenI, atoi_decRepr]

theorem MAX_eq : MAX_SANE_LENGTH = 1048576 := rfl

theorem findStep_some (conv skipDel : Bool) (target : List Nat) (doff : Nat) (f : FE)
    (v : Int × Nat) (coff : Int) :
    findStep conv skipDel target doff f (some v) coff = (some v, coff) := by
  simp [findStep]

theorem findStep_match {conv skipDel : Bool} {target : List Nat} {f : FE}
    (doff : Nat) (coff : Int)
    (h1 : petscii2ascii conv f.name = target)
    (h2 : f.type.headD 0 ≠ 68 ∨ skipDel = false) :
    findStep conv skipDel target doff f none coff = (some (f.lenI, doff), coff) := by
  simp only [findStep]
  rw [if_pos ⟨trivial, h1, h2⟩]
  simp

theorem findStep_nomatch {conv skipDel : Bool} {target : List Nat} {f : FE}
    (doff : Nat) (coff : Int)
    (h : ¬(petscii2ascii conv f.name = target ∧ (f.type.headD 0 ≠ 68 ∨ skipDel = false))) :
    findStep conv skipDel target doff f none coff = (none, coff + f.lenI) := by
  simp only [findStep]
  rw [if_neg (by rintro ⟨-, hh⟩; exact h hh)]
  simp

theorem findLoop_succ_eq {conv skipDel : Bool} {target : List Nat} {k : Nat} {s s' : RStream}
    {f : FE} {found : Option (Int × Nat)} {coff : Int}
    (hp : parseEntry s = some (f, s'))
    (hgood : ¬(f.lenI < 0 ∨ MAX_SANE_LENGTH < f.lenI)) :
    findLoop conv skipDel target (k + 1) s found coff =
      findLoop conv skipDel target k s'
        (findStep conv skipDel target s.pos f found coff).1
        (findStep conv skipDel target s.pos f found coff).2 := by
  rw [findLoop]
  simp only [hp]
  rw [if_neg hgood]

theorem findLoop_found {conv skipDel : Bool} {target : List Nat} :
    ∀ (es : List Ent) (s : RStream) (r : List Nat) (v : Int × Nat) (coff : Int),
      (∀ e ∈ es, WFEnt e) → SaneDir es → s.rest = recordsOf es ++ r →
      findLoop conv skipDel target es.length s (some v) coff =
        some (some v, coff, ⟨s.data, s.pos + dirSize es⟩) := by
  intro es
  induction es with
  | nil =>
    intro s r v coff _ _ _
    simp [findLoop, dirSize]
  | cons e es ih =>
    intro s r v coff hwf hsane hrest
    have hrest1 : s.rest = record e ++ (recordsOf es ++ r) := by
      rw [hrest, recordsOf_cons, List.append_assoc]
    have g := parseEntry_spec (hwf e (by simp)) hrest1
    have hse : (e.len : Int) ≤ MAX_SANE_LENGTH := hsane e (by simp)
    have hgood : ¬((entFE e).lenI < 0 ∨ MAX_SANE_LENGTH < (entFE e).lenI) := by
      simp only [entFE_lenI, MAX_eq] at *
      omega
    have hrest2 : RStream.rest ⟨s.data, s.pos + recSize e⟩ = recordsOf es ++ r := by
      have hlr : (record e).length = recSize e := by simp [record, recSize]; omega
      have := rest_advance (X := record e) (r := recordsOf es ++ r) hrest1
      rwa [hlr] at this
    rw [List.length_cons, findLoop_succ_eq g hgood, findStep_some]
    rw [ih ⟨s.data, s.pos + recSize e⟩ r v coff (fun x hx => hwf x (by simp [hx]))
      (fun x hx => hsane x (by simp [hx])) hrest2]
    simp only [Option.some.injEq, Prod.mk.injEq, RStream.mk.injEq, true_and, and_true,
      dirSize_cons]
    omega

theorem findLoop_search {conv skipDel : Bool} {target : List Nat} :
    ∀ (es : List Ent) (i : Nat) (s : RStream) (r : List Nat) (coff : Int),
      (∀ e ∈ es, WFEnt e) → SaneDir es →
      s.rest = recordsOf es ++ r → i < es.length →
      entMatches conv skipDel target (es.getD i dEnt) →
      (∀ j < i, ¬entMatches conv skipDel target (es.getD j dEnt)) →
      findLoop conv skipDel target es.length s none coff =
        some (some (((es.getD i dEnt).len : Int), s.pos + dirSize (es.take i)),
              coff + (payBefore es i : Int), ⟨s.data, s.pos + dirSize es⟩) := by
  intro es
  induction es with
  | nil => intro i s r coff _ _ _ hi; simp at hi
  | cons e es ih =>
    intro i s r coff hwf hsane hrest hi hm hfirst
    have hrest1 : s.rest = record e ++ (recordsOf es ++ r) := by
      rw [hrest, recordsOf_cons, List.append_assoc]
    have g := parseEntry_spec (hwf e (by simp)) hrest1
    have hse : (e.len : Int) ≤ MAX_SANE_LENGTH := hsane e (by simp)
    have hgood : ¬((entFE e).lenI < 0 ∨ MAX_SANE_LENGTH < (entFE e).lenI) := by
      simp only [entFE_lenI, MAX_eq] at *
      omega
    have hrest2 : RStream.rest ⟨s.data, s.pos + recSize e⟩ = recordsOf es ++ r := by
      have hlr : (record e).length = recSize e := by simp [record, recSize]; omega
      have := rest_advance (X := record e) (r := recordsOf es ++ r) hrest1
      rwa [hlr] at this
    cases i with
    | zero =>
      have hme : entMatches conv skipDel target e := by simpa using hm
      have h1 : petscii2ascii conv (entFE e).name = target := by
        simpa [entFE] using hme.1
      have h2 : (entFE e).type.headD 0 ≠ 68 ∨ skipDel = false := by
        simpa [entFE] using hme.2
      rw [List.length_cons, findLoop_succ_eq g hgood, findStep_match _ _ h1 h2]
      dsimp only
      rw [entFE_lenI]
      rw [findLoop_found es ⟨s.data, s.pos + recSize e⟩ r _ coff
        (fun x hx => hwf x (by simp [hx])) (fun x hx => hsane x (by simp [hx])) hrest2]
      simp only [List.getD_cons_zero, Option.some.injEq, Prod.mk.injEq, RStream.mk.injEq,
        true_and, and_true, dirSize_cons, List.take_zero, dirSize, payBefore,
        List.map_nil, List.sum_nil, List.map_cons, List.sum_cons]
      all_goals omega
    | succ j =>
      have hne : ¬entMatches conv skipDel target e := by
        have := hfirst 0 (by omega)
        simpa using this
      have hno : ¬(petscii2ascii conv (entFE e).name = target ∧
          ((entFE e).type.headD 0 ≠ 68 ∨ skipDel = false)) := by
        simpa [entFE, entMatches] using hne
      rw [List.length_cons, findLoop_succ_eq g hgood, findStep_nomatch _ _ hno]
      dsimp only
      rw [entFE_lenI]
      have hj : j < es.length := by simpa using hi
      have gm : entMatches conv skipDel target (es.getD j dEnt) := by simpa using hm
      have gf : ∀ k < j, ¬entMatches conv skipDel target (es.getD k dEnt) := by
        intro k hk
        have := hfirst (k + 1) (by omega)
        simpa using this
      rw [ih j ⟨s.data, s.pos + recSize e⟩ r (coff + (e.len : Int))
        (fun x hx => hwf x (by simp [hx])) (fun x hx => hsane x (by simp [hx])) hrest2 hj gm gf]
      simp only [List.getD_cons_succ, Option.some.injEq, Prod.mk.injEq, RStream.mk.injEq,
        true_and, and_true, dirSize_cons, List.take_succ_cons, payBefore,
        List.map_cons, List.sum_cons]
      all_goals omega

/-- The locator on a well-formed archive whose first acceptable match for
`target` is entry `i`: it returns the declared length of entry `i`, the
stream offset of its directory record, and the end-of-directory position
plus the payload bytes of the entries scanned before `i`. -/
theorem find_in_lbr_spec {conv skipDel : Bool} {target : List Nat} {es : List Ent}
    {pay : List Nat} {i : Nat}
    (hwf : WFDir es) (hsane : SaneDir es) (hi : i < es.length)
    (hm : entMatches conv skipDel target (es.getD i dEnt))
    (hfirst : ∀ j < i, ¬entMatches conv skipDel target (es.getD j dEnt)) :
    find_in_lbr conv skipDel (archive es pay) target =
      some (((es.getD i dEnt).len : Int), doffAt es i,
            ((dirEnd es + payBefore es i : Nat) : Int)) := by
  have hh := @parseHeader_spec es pay hwf.2
  have hrest : RStream.rest ⟨archive es pay, hdrSize es.length⟩ = recordsOf es ++ pay := by
    rw [rest_mk, drop_archive_hdr]
  have hcnt : ((es.length : Int)).toNat = es.length := by omega
  have hloop := findLoop_search es i ⟨archive es pay, hdrSize es.length⟩ pay 0 hwf.1 hsane
    hrest hi hm hfirst
  simp only [find_in_lbr, hh, hcnt, hloop, doffAt, dirEnd, Option.some.injEq,
    Prod.mk.injEq, true_and]
  all_goals omega

theorem copyToAux_spec :
    ∀ (cs : List Nat) (pos limit : Nat), pos < limit → limit ≤ pos + cs.length →
      copyToAux cs pos limit = (cs.take (limit - pos - 1), limit, cs[limit - pos - 1]?) := by
  intro cs
  induction cs with
  | nil => intro pos limit h1 h2; simp at h2; omega
  | cons c cs ih =>
    intro pos limit h1 h2
    rw [copyToAux]
    by_cases hl : pos + 1 < limit
    · rw [if_pos hl]
      rw [ih (pos + 1) limit hl (by simp at h2 ⊢; omega)]
      have hk : limit - pos - 1 = (limit - (pos + 1) - 1) + 1 := by omega
      rw [hk]
      simp
    · rw [if_neg hl]
      have : limit = pos + 1 := by omega
      subst this
      simp

theorem copyTo_spec {data : List Nat} {pos limit : Nat} (h1 : pos < limit)
    (h2 : limit ≤ data.length) :
    copyTo data pos limit = ((data.drop pos).take (limit - pos), limit) := by
  rw [copyTo, copyToAux_spec (data.drop pos) pos limit h1 (by simp; omega)]
  have : limit - pos = (limit - pos - 1) + 1 := by omega
  rw [this, List.take_succ]
  simp

theorem copyTo_at_limit {data : List Nat} {pos limit : Nat} (h1 : limit ≤ pos)
    (h2 : pos < data.length) :
    copyTo data pos limit = ((data.drop pos).take 1, pos + 1) := by
  rcases h : data.drop pos with _ | ⟨c, cs⟩
  · have := List.drop_eq_nil_iff.1 h
    omega
  · rw [copyTo, h, copyToAux]
    rw [if_neg (by omega)]
    simp

theorem copyThruAux_spec :
    ∀ (cs : List Nat) (pos limit : Nat), pos ≤ limit → limit ≤ pos + cs.length →
      (copyThruAux cs pos limit).1 = cs.take (limit - pos) := by
  intro cs
  induction cs with
  | nil =>
    intro pos limit h1 h2
    simp at h2
    have : limit = pos := by omega
    subst this
    simp [copyThruAux]
  | cons c cs ih =>
    intro pos limit h1 h2
    rw [copyThruAux]
    by_cases hl : pos + 1 ≤ limit
    · rw [if_pos hl]
      have hk : limit - pos = (limit - (pos + 1)) + 1 := by omega
      rw [hk]
      simp only [List.take_succ_cons]
      rw [ih (pos + 1) limit hl (by simp at h2 ⊢; omega)]
    · rw [if_neg hl]
      have : limit = pos := by omega
      subst this
      simp

theorem copyThru_spec {data : List Nat} {pos limit : Nat} (h1 : pos ≤ limit)
    (h2 : limit ≤ data.length) :
    (copyThru data pos limit).1 = (data.drop pos).take (limit - pos) := by
  rw [copyThru, copyThruAux_spec (data.drop pos) pos limit h1 (by simp; omega)]

theorem skipToCR_spec {X : List Nat} (r : List Nat) (h : 13 ∉ X) :
    skipToCR (X ++ 13 :: r) = X.length + 1 := by
  induction X with
  | nil => simp [skipToCR]
  | cons a t ih =>
    have ha : a ≠ 13 := by rintro rfl; exact h (by simp)
    rw [List.cons_append, skipToCR]
    rw [if_neg ha, ih (fun hh => h (by simp [hh]))]
    simp

theorem drop_add_of_drop_eq {data : List Nat} {p : Nat} {X r : List Nat}
    (h : data.drop p = X ++ r) : data.drop (p + X.length) = r := by
  rw [← List.drop_drop, h, List.drop_left]

theorem length_record (e : Ent) : (record e).length = recSize e := by
  simp [record, recSize]
  omega

theorem recordsOf_length (es : List Ent) : (recordsOf es).length = dirSize es := by
  induction es with
  | nil => simp [recordsOf, dirSize]
  | cons e es ih => rw [recordsOf_cons, dirSize_cons]; simp [ih, length_record]

theorem recordsOf_append (l1 l2 : List Ent) :
    recordsOf (l1 ++ l2) = recordsOf l1 ++ recordsOf l2 := by
  simp [recordsOf]

theorem dirSize_append (l1 l2 : List Ent) :
    dirSize (l1 ++ l2) = dirSize l1 + dirSize l2 := by
  simp [dirSize]

theorem totalLen_append (l1 l2 : List Ent) :
    totalLen (l1 ++ l2) = totalLen l1 + totalLen l2 := by
  simp [totalLen]

theorem drop_eq_getD_cons : ∀ {l : List Ent} {i : Nat}, i < l.length →
    l.drop i = l.getD i dEnt :: l.drop (i + 1) := by
  intro l
  induction l with
  | nil => intro i h; simp at h
  | cons a t ih =>
    intro i h
    cases i with
    | zero => simp
    | succ j => simpa using ih (by simpa using h)

theorem dirSize_split {es : List Ent} {i : Nat} (h : i < es.length) :
    dirSize es = dirSize (es.take i) + recSize (es.getD i dEnt) + dirSize (es.drop (i + 1)) := by
  conv_lhs => rw [← List.take_append_drop i es]
  rw [dirSize_append, drop_eq_getD_cons h, dirSize_cons]
  ring

theorem totalLen_split {es : List Ent} {i : Nat} (h : i < es.length) :
    totalLen es = payBefore es i + (es.getD i dEnt).len + totalLen (es.drop (i + 1)) := by
  conv_lhs => rw [← List.take_append_drop i es]
  rw [totalLen_append, drop_eq_getD_cons h]
  have : totalLen (es.getD i dEnt :: es.drop (i + 1)) =
      (es.getD i dEnt).len + totalLen (es.drop (i + 1)) := by simp [totalLen]
  rw [this, payBefore]
  have hp : totalLen (es.take i) = ((es.take i).map Ent.len).sum := rfl
  omega

theorem length_archive (es : List Ent) (pay : List Nat) :
    (archive es pay).length = dirEnd es + pay.length := by
  simp [archive, dirEnd, hdrSize, recordsOf_length]
  omega

theorem hdrSize_ge (n : Nat) : 7 ≤ hdrSize n := by
  have h1 : (decRepr n).length ≥ 1 := List.length_pos.2 (decRepr_ne_nil n)
  rw [hdrSize]
  omega

theorem drop_doffAt {es : List Ent} (pay : List Nat) (i : Nat) :
    (archive es pay).drop (doffAt es i) = recordsOf (es.drop i) ++ pay := by
  have h0 : (archive es pay).drop (hdrSize es.length) =
      recordsOf (es.take i) ++ (recordsOf (es.drop i) ++ pay) := by
    rw [drop_archive_hdr]
    conv_lhs => rw [← List.take_append_drop i es]
    rw [recordsOf_append, List.append_assoc]
  have := drop_add_of_drop_eq h0
  rw [recordsOf_length] at this
  rw [doffAt]
  exact this

theorem archive_take3 (es : List Ent) (pay : List Nat) :
    (archive es pay).take 3 = [68, 87, 66] := by
  rw [archive]
  rw [show [68, 87, 66, 32] ++ decRepr es.length ++ [32, 13] ++ recordsOf es ++ pay =
    [68, 87, 66] ++ (32 :: (decRepr es.length ++ [32, 13] ++ recordsOf es ++ pay)) by simp]
  rw [List.take_append_of_le_length (by simp)]
  rfl

theorem archive_drop3 (es : List Ent) (pay : List Nat) :
    (archive es pay).drop 3 =
      32 :: (decRepr es.length ++ 32 :: 13 :: (recordsOf es ++ pay)) := by
  rw [archive]
  rw [show [68, 87, 66, 32] ++ decRepr es.length ++ [32, 13] ++ recordsOf es ++ pay =
    [68, 87, 66] ++ (32 :: (decRepr es.length ++ 32 :: 13 :: (recordsOf es ++ pay))) by simp]
  rw [show (3 : Nat) = ([68, 87, 66] : List Nat).length by rfl, List.drop_left]

theorem archive_drop4 (es : List Ent) (pay : List Nat) :
    (archive es pay).drop 4 =
      decRepr es.length ++ 32 :: 13 :: (recordsOf es ++ pay) := by
  rw [archive]
  rw [show [68, 87, 66, 32] ++ decRepr es.length ++ [32, 13] ++ recordsOf es ++ pay =
    [68, 87, 66, 32] ++ (decRepr es.length ++ 32 :: 13 :: (recordsOf es ++ pay)) by simp]
  rw [show (4 : Nat) = ([68, 87, 66, 32] : List Nat).length by rfl, List.drop_left]

theorem archive_take_hdr (es : List Ent) (pay : List Nat) :
    (archive es pay).take (hdrSize es.length) =
      [68, 87, 66, 32] ++ decRepr es.length ++ [32, 13] := by
  rw [archive, hdrSize]
  rw [show [68, 87, 66, 32] ++ decRepr es.length ++ [32, 13] ++ recordsOf es ++ pay =
    ([68, 87, 66, 32] ++ decRepr es.length ++ [32, 13]) ++ (recordsOf es ++ pay) by simp]
  rw [List.take_append_of_le_length (by simp; omega)]
  rw [List.take_of_length_le (by simp; omega)]

theorem record_positions {data : List Nat} {D : Nat} {e : Ent} {R : List Nat}
    (hwf : WFEnt e) (hD : data.drop D = record e ++ R) :
    (data.drop D).takeWhile (fun c => c ≠ 13) = e.name ∧
    skipToCR (data.drop D) = e.name.length + 1 ∧
    skipToCR (data.drop (D + (e.name.length + 1))) = 2 ∧
    skipToCR (data.drop (D + (e.name.length + 1) + 2)) = (decRepr e.len).length + 3 ∧
    data.drop (D + recSize e) = R := by
  obtain ⟨hne, hlen, hcr, hty, h31⟩ := hwf
  have hshape : data.drop D =
      e.name ++ 13 :: (e.type :: 13 :: 32 :: (decRepr e.len ++ 32 :: 13 :: R)) := by
    rw [hD, record]; simp
  have d1 : data.drop (D + (e.name.length + 1)) =
      e.type :: 13 :: 32 :: (decRepr e.len ++ 32 :: 13 :: R) := by
    have h2 : data.drop D = (e.name ++ [13]) ++
        (e.type :: 13 :: 32 :: (decRepr e.len ++ 32 :: 13 :: R)) := by
      rw [hshape]; simp
    have h3 := drop_add_of_drop_eq h2
    simpa using h3
  have d2 : data.drop (D + (e.name.length + 1) + 2) =
      32 :: (decRepr e.len ++ 32 :: 13 :: R) := by
    have h2 : data.drop (D + (e.name.length + 1)) = ([e.type, 13] : List Nat) ++
        (32 :: (decRepr e.len ++ 32 :: 13 :: R)) := by rw [d1]; simp
    have h3 := drop_add_of_drop_eq h2
    simpa using h3
  refine ⟨?_, ?_, ?_, ?_, ?_⟩
  · rw [hshape]
    exact takeWhile_field 13 _ hcr
  · rw [hshape]
    exact skipToCR_spec _ hcr
  · rw [d1, show e.type :: 13 :: 32 :: (decRepr e.len ++ 32 :: 13 :: R) =
      ([e.type] : List Nat) ++ 13 :: (32 :: (decRepr e.len ++ 32 :: 13 :: R)) by simp]
    rw [skipToCR_spec _ (by simpa using Ne.symm hty)]
    simp
  · rw [d2, show (32 :: (decRepr e.len ++ 32 :: 13 :: R) : List Nat) =
      (32 :: (decRepr e.len ++ [32])) ++ 13 :: R by simp]
    rw [skipToCR_spec _ (by
      intro hmem
      rcases List.mem_cons.1 hmem with h | h
      · omega
      · rcases List.mem_append.1 h with h | h
        · have := decRepr_digits e.len 13 h; omega
        · simp at h)]
    simp
  · have h2 := drop_add_of_drop_eq hD
    rwa [length_record] at h2

theorem delete_lbr_keep_eq (conv skipDel : Bool) (target : List Nat) (es : List Ent)
    (pay : List Nat) (i : Nat)
    (hwf : WFDir es) (hsane : SaneDir es) (hpay : pay.length = totalLen es)
    (hi : i < es.length)
    (hm : entMatches conv skipDel target (es.getD i dEnt))
    (hfirst : ∀ j < i, ¬entMatches conv skipDel target (es.getD j dEnt)) :
    delete_lbr conv skipDel false (archive es pay) target =
      some (deleteKeepExpected es pay i) := by
  have hfind := @find_in_lbr_spec conv skipDel target es pay i hwf hsane hi hm hfirst
  have hemem : es.getD i dEnt ∈ es := by
    have h := drop_eq_getD_cons hi
    have h2 : es.getD i dEnt ∈ es.drop i := by rw [h]; simp
    exact List.mem_of_mem_drop h2
  have hwfe : WFEnt (es.getD i dEnt) := hwf.1 _ hemem
  have hD : doffAt es i = hdrSize es.length + dirSize (es.take i) := rfl
  have hE : dirEnd es = hdrSize es.length + dirSize es := rfl
  have hsplit := dirSize_split hi
  have htsplit := totalLen_split hi
  have hlen := length_archive es pay
  have h7 := hdrSize_ge es.length
  have hrecpos : (archive es pay).drop (doffAt es i) =
      record (es.getD i dEnt) ++ (recordsOf (es.drop (i + 1)) ++ pay) := by
    rw [drop_doffAt pay i, drop_eq_getD_cons hi, recordsOf_cons, List.append_assoc]
  obtain ⟨htw, hs1, hs2, hs3, hdrop⟩ := record_positions hwfe hrecpos
  have hrs : recSize (es.getD i dEnt) =
      (es.getD i dEnt).name.length + (decRepr (es.getD i dEnt).len).length + 6 := rfl
  have hDlt : 3 < doffAt es i := by omega
  have hDle : doffAt es i ≤ (archive es pay).length := by omega
  have hREle : doffAt es i + recSize (es.getD i dEnt) ≤ dirEnd es := by omega
  have hOFF : dirEnd es + payBefore es i + (es.getD i dEnt).len ≤
      (archive es pay).length := by omega
  have hc1 := @copyTo_spec (archive es pay) _ _ hDlt hDle
  have hoffnat : ((dirEnd es + payBefore es i : Nat) : Int).toNat =
      dirEnd es + payBefore es i := by omega
  have htail : (((dirEnd es + payBefore es i : Nat) : Int) +
      ((es.getD i dEnt).len : Int)).toNat =
      dirEnd es + payBefore es i + (es.getD i dEnt).len := by omega
  have hp3 : doffAt es i + ((es.getD i dEnt).name.length + 1) + 2 +
      ((decRepr (es.getD i dEnt).len).length + 3) =
      doffAt es i + recSize (es.getD i dEnt) := by omega
  have hthru := @copyThru_spec (archive es pay)
    (doffAt es i + recSize (es.getD i dEnt))
    (dirEnd es + payBefore es i) (by omega) (by omega)
  simp only [delete_lbr, hfind, Bool.false_eq_true, if_false, hc1, hoffnat, htail]
  rw [hs1, hs2, hs3, hp3, hthru, htw]
  have hglue : List.take (doffAt es i) (archive es pay) =
      List.take 3 (archive es pay) ++ List.take (doffAt es i - 3) (List.drop 3 (archive es pay)) := by
    conv_lhs => rw [show doffAt es i = 3 + (doffAt es i - 3) by omega]
    exact List.take_add _ _ _
  rw [deleteKeepExpected, hglue]
  simp [List.append_assoc]

theorem recSize_pos (e : Ent) : 0 < recSize e := by
  rw [recSize]; omega

theorem dirSize_take_pos {es : List Ent} {i : Nat} (h1 : 0 < i) (h2 : 0 < es.length) :
    0 < dirSize (es.take i) := by
  rcases es with _ | ⟨e, es2⟩
  · simp at h2
  · rcases i with _ | j
    · omega
    · rw [show (e :: es2).take (j + 1) = e :: es2.take j by simp, dirSize_cons]
      have := recSize_pos e
      omega

theorem delete_lbr_wipe_eq (conv skipDel : Bool) (target : List Nat) (es : List Ent)
    (pay : List Nat) (i : Nat)
    (hwf : WFDir es) (hsane : SaneDir es) (hpay : pay.length = totalLen es)
    (hi : i < es.length)
    (hm : entMatches conv skipDel target (es.getD i dEnt))
    (hfirst : ∀ j < i, ¬entMatches conv skipDel target (es.getD j dEnt)) :
    delete_lbr conv skipDel true (archive es pay) target =
      some (deleteWipeExpected es pay i) := by
  have hfind := @find_in_lbr_spec conv skipDel target es pay i hwf hsane hi hm hfirst
  have hemem : es.getD i dEnt ∈ es := by
    have h := drop_eq_getD_cons hi
    have h2 : es.getD i dEnt ∈ es.drop i := by rw [h]; simp
    exact List.mem_of_mem_drop h2
  have hwfe : WFEnt (es.getD i dEnt) := hwf.1 _ hemem
  have hD : doffAt es i = hdrSize es.length + dirSize (List.take i es) := rfl
  have hE : dirEnd es = hdrSize es.length + dirSize es := rfl
  have hsplit := dirSize_split hi
  have htsplit := totalLen_split hi
  have hlen := length_archive es pay
  have h7 := hdrSize_ge es.length
  have hnm1 : 1 ≤ (es.getD i dEnt).name.length := List.length_pos.2 hwfe.1
  have hrecpos : (archive es pay).drop (doffAt es i) =
      record (es.getD i dEnt) ++ (recordsOf (es.drop (i + 1)) ++ pay) := by
    rw [drop_doffAt pay i, drop_eq_getD_cons hi, recordsOf_cons, List.append_assoc]
  obtain ⟨htw, hs1, hs2, hs3, hdrop⟩ := record_positions hwfe hrecpos
  have hrs : recSize (es.getD i dEnt) =
      (es.getD i dEnt).name.length + (decRepr (es.getD i dEnt).len).length + 6 := rfl
  have hDle : doffAt es i ≤ (archive es pay).length := by omega
  have hREle : doffAt es i + recSize (es.getD i dEnt) ≤ dirEnd es := by omega
  have hOFF : dirEnd es + payBefore es i + (es.getD i dEnt).len ≤
      (archive es pay).length := by omega
  have hc1 : ((archive es pay).drop 3).take 1 = [32] := by rw [archive_drop3]; rfl
  have hcnt : (((archive es pay).drop 4).takeWhile (fun c => c ≠ 32)).take 255 =
      decRepr es.length := by
    rw [archive_drop4]
    rw [show decRepr es.length ++ 32 :: 13 :: (recordsOf es ++ pay) =
      decRepr es.length ++ 32 :: (13 :: (recordsOf es ++ pay)) by simp]
    rw [takeWhile_field 32 _ (sp_not_mem_decRepr es.length)]
    exact List.take_of_length_le (length_decRepr_le_255 hwf.2)
  have hc2 : ((archive es pay).drop (4 + (decRepr es.length).length)).take 2 = [32, 13] := by
    have h4 : (archive es pay).drop 4 =
        decRepr es.length ++ (32 :: 13 :: (recordsOf es ++ pay)) := by
      rw [archive_drop4]
    rw [drop_add_of_drop_eq h4]
    rfl
  have hdec : intRepr (atoi (decRepr es.length) - 1) = decRepr (es.length - 1) := by
    rw [atoi_decRepr, intRepr_nonneg (by omega)]
    congr 1
    omega
  have hh : 4 + (decRepr es.length).length + 2 = hdrSize es.length := by
    rw [hdrSize]; omega
  have hoffnat : ((dirEnd es + payBefore es i : Nat) : Int).toNat =
      dirEnd es + payBefore es i := by omega
  have htail : (((dirEnd es + payBefore es i : Nat) : Int) +
      ((es.getD i dEnt).len : Int)).toNat =
      dirEnd es + payBefore es i + (es.getD i dEnt).len := by omega
  have hp3 : doffAt es i + ((es.getD i dEnt).name.length + 1) + 2 +
      ((decRepr (es.getD i dEnt).len).length + 3) =
      doffAt es i + recSize (es.getD i dEnt) := by omega
  have hthru := @copyThru_spec (archive es pay)
    (doffAt es i + recSize (es.getD i dEnt))
    (dirEnd es + payBefore es i) (by omega) (by omega)
  simp only [delete_lbr, hfind, if_true, hc1, hcnt, hc2, hdec, hh, hoffnat, htail]
  rcases Nat.eq_zero_or_pos i with rfl | hipos
  · -- the target is the first record: one stray name byte is retained
    have hD0 : doffAt es 0 = hdrSize es.length := by
      simp [doffAt, dirSize]
    rw [hD0] at hrecpos hs2 hs3 hp3 hthru ⊢
    have hlt : hdrSize es.length < (archive es pay).length := by omega
    have hcTo := @copyTo_at_limit (archive es pay)
      (hdrSize es.length) (hdrSize es.length) (le_refl _) hlt
    rw [hcTo]
    dsimp only
    rcases hname : (es.getD 0 dEnt).name with _ | ⟨n0, nmt⟩
    · exact absurd hname hwfe.1
    have hsh1 : (archive es pay).drop (hdrSize es.length) =
        [n0] ++ (nmt ++ 13 :: ((es.getD 0 dEnt).type :: 13 :: 32 ::
          (decRepr (es.getD 0 dEnt).len ++ 32 :: 13 ::
            (recordsOf (es.drop 1) ++ pay)))) := by
      rw [hrecpos, record, hname]
      simp
    have hdropped := drop_add_of_drop_eq hsh1
    have hs1b : skipToCR ((archive es pay).drop (hdrSize es.length + 1)) =
        (es.getD 0 dEnt).name.length := by
      rw [show hdrSize es.length + 1 =
        hdrSize es.length + ([n0] : List Nat).length by simp]
      rw [hdropped]
      rw [skipToCR_spec _ (fun hmem =>
        hwfe.2.2.1 (by rw [hname]; exact List.mem_cons_of_mem _ hmem))]
      rw [hname]
      simp
    rw [hs1b]
    rw [show hdrSize es.length + 1 + (es.getD 0 dEnt).name.length =
      hdrSize es.length + ((es.getD 0 dEnt).name.length + 1) by omega]
    rw [hs2, hs3, hp3, hthru]
    simp [deleteWipeExpected, hD0, List.append_assoc, archive_take3]
  · -- the target is a later record: the loop stops exactly at the record
    have hDgt : hdrSize es.length < doffAt es i := by
      have := dirSize_take_pos hipos (show 0 < es.length by omega)
      omega
    have hcTo := @copyTo_spec (archive es pay)
      (hdrSize es.length) (doffAt es i) hDgt hDle
    rw [hcTo]
    dsimp only
    rw [hs1, hs2, hs3, hp3, hthru]
    rw [deleteWipeExpected, if_neg (by omega)]
    simp [List.append_assoc, archive_take3]

theorem chtype_lbr_eq (conv skipDel : Bool) (target newType : List Nat) (es : List Ent)
    (pay : List Nat) (i : Nat)
    (hwf : WFDir es) (hsane : SaneDir es) (hi : i < es.length)
    (hm : entMatches conv skipDel target (es.getD i dEnt))
    (hfirst : ∀ j < i, ¬entMatches conv skipDel target (es.getD j dEnt)) :
    chtype_lbr conv skipDel (archive es pay) target newType =
      some ((archive es pay).take (doffAt es i + (es.getD i dEnt).name.length + 1)
        ++ ascii2petscii conv newType
        ++ (archive es pay).drop (doffAt es i + (es.getD i dEnt).name.length + 1 + 1)) := by
  have hfind := @find_in_lbr_spec conv skipDel target es pay i hwf hsane hi hm hfirst
  have hemem : es.getD i dEnt ∈ es := by
    have h := drop_eq_getD_cons hi
    have h2 : es.getD i dEnt ∈ es.drop i := by rw [h]; simp
    exact List.mem_of_mem_drop h2
  have hwfe : WFEnt (es.getD i dEnt) := hwf.1 _ hemem
  have hD : doffAt es i = hdrSize es.length + dirSize (List.take i es) := rfl
  have hE : dirEnd es = hdrSize es.length + dirSize es := rfl
  have hsplit := dirSize_split hi
  have hlen := length_archive es pay
  have h7 := hdrSize_ge es.length
  have hrecpos : (archive es pay).drop (doffAt es i) =
      record (es.getD i dEnt) ++ (recordsOf (es.drop (i + 1)) ++ pay) := by
    rw [drop_doffAt pay i, drop_eq_getD_cons hi, recordsOf_cons, List.append_assoc]
  obtain ⟨htw, hs1, hs2, hs3, hdrop⟩ := record_positions hwfe hrecpos
  have hrs : recSize (es.getD i dEnt) =
      (es.getD i dEnt).name.length + (decRepr (es.getD i dEnt).len).length + 6 := rfl
  have hDlt : 3 < doffAt es i := by omega
  have hDle : doffAt es i ≤ (archive es pay).length := by omega
  have hc1 := @copyTo_spec (archive es pay) _ _ hDlt hDle
  have hshape : (archive es pay).drop (doffAt es i) =
      (es.getD i dEnt).name ++ 13 :: ((es.getD i dEnt).type :: 13 :: 32 ::
        (decRepr (es.getD i dEnt).len ++ 32 :: 13 ::
          (recordsOf (es.drop (i + 1)) ++ pay))) := by
    rw [hrecpos, record]
    simp
  have hd1 : (archive es pay).drop (doffAt es i + ((es.getD i dEnt).name.length + 1)) =
      (es.getD i dEnt).type :: 13 :: 32 :: (decRepr (es.getD i dEnt).len ++ 32 :: 13 ::
        (recordsOf (es.drop (i + 1)) ++ pay)) := by
    have h2 : (archive es pay).drop (doffAt es i) = ((es.getD i dEnt).name ++ [13]) ++
        ((es.getD i dEnt).type :: 13 :: 32 :: (decRepr (es.getD i dEnt).len ++ 32 :: 13 ::
          (recordsOf (es.drop (i + 1)) ++ pay))) := by
      rw [hshape]; simp
    have h3 := drop_add_of_drop_eq h2
    simpa using h3
  have hd2 : (archive es pay).drop (doffAt es i + ((es.getD i dEnt).name.length + 1) + 1) =
      13 :: 32 :: (decRepr (es.getD i dEnt).len ++ 32 :: 13 ::
        (recordsOf (es.drop (i + 1)) ++ pay)) := by
    have h2 : (archive es pay).drop (doffAt es i + ((es.getD i dEnt).name.length + 1)) =
        ([(es.getD i dEnt).type] : List Nat) ++ (13 :: 32 ::
          (decRepr (es.getD i dEnt).len ++ 32 :: 13 ::
            (recordsOf (es.drop (i + 1)) ++ pay))) := by
      rw [hd1]; simp
    have h3 := drop_add_of_drop_eq h2
    simpa using h3
  have hd3 : (archive es pay).drop (doffAt es i + ((es.getD i dEnt).name.length + 1) + 2) =
      32 :: (decRepr (es.getD i dEnt).len ++ 32 :: 13 ::
        (recordsOf (es.drop (i + 1)) ++ pay)) := by
    have h2 : (archive es pay).drop (doffAt es i + ((es.getD i dEnt).name.length + 1)) =
        ([(es.getD i dEnt).type, 13] : List Nat) ++ (32 ::
          (decRepr (es.getD i dEnt).len ++ 32 :: 13 ::
            (recordsOf (es.drop (i + 1)) ++ pay))) := by
      rw [hd1]; simp
    have h3 := drop_add_of_drop_eq h2
    simpa using h3
  have htake : (archive es pay).take (doffAt es i + (es.getD i dEnt).name.length + 1) =
      (archive es pay).take (doffAt es i) ++ ((es.getD i dEnt).name ++ [13]) := by
    rw [show doffAt es i + (es.getD i dEnt).name.length + 1 =
      doffAt es i + ((es.getD i dEnt).name.length + 1) by omega]
    rw [List.take_add]
    congr 1
    rw [show (es.getD i dEnt).name.length + 1 =
      ((es.getD i dEnt).name ++ [13] : List Nat).length by simp]
    rw [show (archive es pay).drop (doffAt es i) = ((es.getD i dEnt).name ++ [13]) ++
      ((es.getD i dEnt).type :: 13 :: 32 :: (decRepr (es.getD i dEnt).len ++ 32 :: 13 ::
        (recordsOf (es.drop (i + 1)) ++ pay))) from by rw [hshape]; simp]
    rw [List.take_left]
  have hglue : List.take (doffAt es i) (archive es pay) =
      List.take 3 (archive es pay) ++
        List.take (doffAt es i - 3) (List.drop 3 (archive es pay)) := by
    conv_lhs => rw [show doffAt es i = 3 + (doffAt es i - 3) by omega]
    exact List.take_add _ _ _
  have hrhsdrop : (archive es pay).drop (doffAt es i + (es.getD i dEnt).name.length + 1 + 1) =
      13 :: 32 :: (decRepr (es.getD i dEnt).len ++ 32 :: 13 ::
        (recordsOf (es.drop (i + 1)) ++ pay)) := by
    rw [show doffAt es i + (es.getD i dEnt).name.length + 1 + 1 =
      doffAt es i + ((es.getD i dEnt).name.length + 1) + 1 by omega]
    exact hd2
  simp only [chtype_lbr, hfind, hc1, htw, hs1, hs2]
  rw [hd3, htake, hglue, hrhsdrop]
  simp [List.append_assoc]

theorem emitLBR_eq_archive (conv strip : Bool) (files : List SrcFile) :
    emitLBR conv strip files =
      archive (files.map (toEnt conv strip)) (payloadOf files) := by
  rw [emitLBR, archive, payloadOf, recordsOf, List.map_map]
  simp only [List.length_map]
  rfl

theorem typeByte_vals (f : SrcFile) :
    typeByte f = 68 ∨ typeByte f = 80 ∨ typeByte f = 85 ∨ typeByte f = 82 ∨
      typeByte f = 83 := by
  rw [typeByte]
  by_cases h0 : f.content.length = 0
  · rw [if_pos h0]; left; rfl
  · rw [if_neg h0]
    dsimp only
    by_cases h1 : (pathExtension f.name).map tolowerByte = [46, 112, 114, 103]
    · rw [if_pos h1]; right; left; rfl
    · rw [if_neg h1]
      by_cases h2 : (pathExtension f.name).map tolowerByte = [46, 117, 115, 114]
      · rw [if_pos h2]; right; right; left; rfl
      · rw [if_neg h2]
        by_cases h3 : (pathExtension f.name).map tolowerByte = [46, 114, 101, 108]
        · rw [if_pos h3]; right; right; right; left; rfl
        · rw [if_neg h3]; right; right; right; right; rfl

theorem typeByte_ne_13 (f : SrcFile) : typeByte f ≠ 13 := by
  rcases typeByte_vals f with h | h | h | h | h <;> omega

theorem p2aByte_typeByte (f : SrcFile) : p2aByte (typeByte f) = typeByte f := by
  rcases typeByte_vals f with h | h | h | h | h <;> rw [h] <;> decide

theorem cr_not_mem_a2p (s : List Nat) : 13 ∉ ascii2petscii true s := by
  intro h
  have := mem_ascii2petscii_true h
  omega

theorem entFE_len {e : Ent} (h31 : (e.len : Int) < 2 ^ 31) : (entFE e).len = e.len := by
  rw [FE.len, entFE_lenI, u32]
  rw [Int.emod_eq_of_lt (by omega) (by omega)]
  omega

theorem entFE_not_bad {e : Ent} (hs : (e.len : Int) ≤ MAX_SANE_LENGTH) : ¬(entFE e).bad := by
  rw [FE.bad, entFE_lenI, MAX_eq]
  rw [MAX_eq] at hs
  omega

theorem entFE_bad_of_big {e : Ent} (hs : MAX_SANE_LENGTH < (e.len : Int)) : (entFE e).bad := by
  rw [FE.bad, entFE_lenI]
  right
  exact hs

theorem renderLine_entFE (conv verbose : Bool) {e : Ent} (h31 : (e.len : Int) < 2 ^ 31) :
    renderLine conv verbose (entFE e) =
      petscii2ascii conv e.name ++ [32, 40] ++ petscii2ascii conv [e.type] ++ [41, 32]
        ++ decRepr e.len
        ++ (if 1048576 < e.len then (if verbose then [32, 40, 98, 97, 100, 41] else [])
            else []) := by
  rw [renderLine, entFE_len h31]
  dsimp only [entFE]
  have hcond : (e.len < 0 ∨ MAX_SANE_LENGTH.toNat < e.len) = (1048576 < e.len) := by
    rw [show MAX_SANE_LENGTH.toNat = 1048576 from rfl]
    simp
  simp only [hcond]

theorem flatMap_singleton_map {α β : Type} (g : α → β) (l : List α) :
    (l.flatMap fun x => [g x]) = l.map g := by
  induction l with
  | nil => rfl
  | cons a t ih => simp [List.flatMap_cons, ih]

/-- Listing a well-formed archive without `skip_deleted` and without
sorting renders exactly one line per directory entry, in order. -/
theorem list_lbr_archive (conv verbose : Bool) (es : List Ent) (pay : List Nat)
    (hwf : WFDir es) :
    list_lbr conv verbose false false (archive es pay) =
      some (es.map fun e => renderLine conv verbose (entFE e)) := by
  have hh := @parseHeader_spec es pay hwf.2
  have hcnt : ((es.length : Int)).toNat = es.length := by omega
  have hrest : RStream.rest ⟨archive es pay, hdrSize es.length⟩ = recordsOf es ++ pay := by
    rw [rest_mk, drop_archive_hdr]
  have hpe := parseEntries_spec es ⟨archive es pay, hdrSize es.length⟩ pay hwf.1 hrest
  simp only [list_lbr, hh, hcnt, hpe]
  rw [if_neg (by simp)]
  congr 1
  simp only [Bool.false_eq_true, and_false, if_false]
  rw [flatMap_singleton_map, List.map_map]
  rfl

theorem extractLoop_bad_glob {conv skipDel addExt : Bool} {targets : List (List Nat)}
    {data : List Nat} :
    ∀ (fs1 : List FE) (f : FE) (fs2 : List FE) (pos : Nat),
      (∀ g ∈ fs1, ¬g.bad) → f.bad →
      extractLoop conv skipDel addExt targets data (fs1 ++ f :: fs2) pos =
        extractLoop conv skipDel addExt targets data fs1 pos
          ++ [(f.name, data.drop (pos + consumedSum conv skipDel targets fs1))] := by
  intro fs1
  induction fs1 with
  | nil =>
    intro f fs2 pos _ hbad
    simp only [List.nil_append, extractLoop]
    rw [if_pos hbad]
    simp [consumedSum]
  | cons g gs ih =>
    intro f fs2 pos hgood hbad
    have hg : ¬g.bad := hgood g (by simp)
    have hgs : ∀ x ∈ gs, ¬x.bad := fun x hx => hgood x (by simp [hx])
    simp only [List.cons_append, extractLoop, List.append_eq]
    rw [if_neg hg, if_neg hg]
    have hsum : consumedSum conv skipDel targets (g :: gs) =
        consumed conv skipDel targets g + consumedSum conv skipDel targets gs := by
      simp [consumedSum]
    by_cases h0 : g.len = 0
    · rw [if_pos h0, if_pos h0, ih f fs2 pos hgs hbad]
      have hc : consumed conv skipDel targets g = 0 := by rw [consumed, if_pos h0]
      simp [hsum, hc]
    · rw [if_neg h0, if_neg h0]
      by_cases hD : g.type = [68] ∧ skipDel = true
      · rw [if_pos hD, if_pos hD, ih f fs2 (pos + g.len) hgs hbad]
        have hc : consumed conv skipDel targets g = g.len := by
          rw [consumed, if_neg h0, if_pos hD]
        simp [hsum, hc, Nat.add_assoc]
      · rw [if_neg hD, if_neg hD]
        by_cases ht : targets ≠ [] ∧ petscii2ascii conv g.name ∉ targets
        · rw [if_pos ht, ih f fs2 (pos + g.len + g.len) hgs hbad]
          have hc : consumed conv skipDel targets g = 2 * g.len := by
            rw [consumed, if_neg h0, if_neg hD, if_pos ht]
          simp [hsum, hc, Nat.add_assoc, Nat.two_mul]
        · rw [if_neg ht, ih f fs2 (pos + g.len) hgs hbad]
          have hc : consumed conv skipDel targets g = g.len := by
            rw [consumed, if_neg h0, if_neg hD, if_neg ht]
          simp [hsum, hc, Nat.add_assoc]

/-- `extract_lbr` on a well-formed archive whose first bad-length entry is
`e`: the sane entries before it are processed normally, then the whole
remaining stream is dumped into one file named by the raw stored name of
`e`, and nothing after `e` is processed. -/
theorem extract_lbr_bad_glob (conv skipDel addExt : Bool) (targets : List (List Nat))
    (es1 : List Ent) (e : Ent) (es2 : List Ent) (pay : List Nat)
    (hwf : WFDir (es1 ++ e :: es2)) (hsane1 : SaneDir es1)
    (hbad : MAX_SANE_LENGTH < (e.len : Int)) :
    extract_lbr conv skipDel addExt targets (archive (es1 ++ e :: es2) pay) =
      some (extractLoop conv skipDel addExt targets (archive (es1 ++ e :: es2) pay)
              (es1.map entFE) (dirEnd (es1 ++ e :: es2))
            ++ [(e.name, (archive (es1 ++ e :: es2) pay).drop
                  (dirEnd (es1 ++ e :: es2) +
                    consumedSum conv skipDel targets (es1.map entFE)))]) := by
  have hh := @parseHeader_spec (es1 ++ e :: es2) pay hwf.2
  have hcnt : (((es1 ++ e :: es2).length : Int)).toNat = (es1 ++ e :: es2).length := by
    omega
  have hrest : RStream.rest ⟨archive (es1 ++ e :: es2) pay,
      hdrSize (es1 ++ e :: es2).length⟩ = recordsOf (es1 ++ e :: es2) ++ pay := by
    rw [rest_mk, drop_archive_hdr]
  have hpe := parseEntries_spec (es1 ++ e :: es2)
    ⟨archive (es1 ++ e :: es2) pay, hdrSize (es1 ++ e :: es2).length⟩ pay hwf.1 hrest
  simp only [extract_lbr, hh, hcnt, hpe]
  have hmap : (es1 ++ e :: es2).map entFE = es1.map entFE ++ entFE e :: es2.map entFE := by
    simp
  rw [hmap, extractLoop_bad_glob (es1.map entFE) (entFE e) (es2.map entFE) _
    (fun g hg => by
      obtain ⟨x, hx, rfl⟩ := List.mem_map.1 hg
      exact entFE_not_bad (hsane1 x hx))
    (entFE_bad_of_big hbad)]
  rfl

/-- C2 (counterexample): the claimed stable subset is wrong — a lowercase
letter decodes back uppercased, and the special-cased backslash comes back
as a slash, so `decode(encode(t)) = t` fails on texts made of the claimed
characters. -/
theorem codec_roundtrip_cex :
    petscii2ascii true (ascii2petscii true [97]) ≠ [97] ∧
    petscii2ascii true (ascii2petscii true [92]) ≠ [92] := by decide

/-- C2 (amended): `decode(encode(t)) = t` holds exactly for texts over the
true stable subset, the bytes `0x20`-`0x5D` other than the backslash
`0x5C` — uppercase letters, digits, space and that range of punctuation
including the brackets; lowercase letters and the special-cased punctuation
(backslash, underscore, backtick, braces, pipe) are mapped one-way. -/
theorem codec_roundtrip_stable (t : List Nat)
    (h : ∀ c ∈ t, 32 ≤ c ∧ c ≤ 93 ∧ c ≠ 92) :
    petscii2ascii true (ascii2petscii true t) = t := by
  simp only [petscii2ascii, ascii2petscii, if_pos]
  rw [List.map_map]
  have hid : ∀ c ∈ t, (p2aByte ∘ a2pByte) c = c := fun c hc => by
    obtain ⟨h1, h2, h3⟩ := h c hc
    exact roundtrip_byte c (by omega) h1 h3
  rw [List.map_congr_left hid]
  exact List.map_id _

theorem codec_roundtrip_stable_witness :
    (∀ c ∈ [72, 69, 76, 76, 79, 32, 49, 50, 51, 32, 91, 79, 75, 93],
      32 ≤ c ∧ c ≤ 93 ∧ c ≠ 92) ∧
    petscii2ascii true (ascii2petscii true
        [72, 69, 76, 76, 79, 32, 49, 50, 51, 32, 91, 79, 75, 93]) =
      [72, 69, 76, 76, 79, 32, 49, 50, 51, 32, 91, 79, 75, 93] :=
  ⟨by decide, codec_roundtrip_stable _ (by decide)⟩

/-- C8: with `--sort` and `--pad-sorted` both set, `build_lbr` fails if and
only if the integer (`atoi`) value of the last post-sort entry name is not
strictly greater than that of the first; the check (line 139) precedes the
opening of the output stream (line 156), so the failing case — modelled as
`none` — writes no output bytes to the output path. -/
theorem build_lbr_pad_fails_iff (conv strip : Bool) (input : List SrcFile)
    (hne : input ≠ []) :
    (build_lbr conv input true true strip = none ↔
      atoi ((sortBy (fun a b => num_cmp a.name b.name) input).getLastD deff).name ≤
        atoi ((sortBy (fun a b => num_cmp a.name b.name) input).headD deff).name) := by
  have hx := hne
  simp only [build_lbr]
  rw [if_pos (⟨trivial, trivial⟩ : True ∧ True)]
  rw [if_pos trivial]
  split
  next h => exact iff_of_true rfl h
  next h => exact iff_of_false (by simp) h

theorem build_lbr_pad_fails_iff_witness :
    ([(⟨[51], []⟩ : SrcFile)] ≠ []) ∧
    (build_lbr true [⟨[51], []⟩] true true false = none ↔
      atoi ((sortBy (fun a b => num_cmp a.name b.name)
          [(⟨[51], []⟩ : SrcFile)]).getLastD deff).name ≤
        atoi ((sortBy (fun a b => num_cmp a.name b.name)
          [(⟨[51], []⟩ : SrcFile)]).headD deff).name) :=
  ⟨by decide, build_lbr_pad_fails_iff true false [⟨[51], []⟩] (by decide)⟩

/-- C10: the extraction target filter has no `continue` (src/lbr.cpp line
273): on the archive `A`(1 byte `x`), `B`(1 byte `y`) with target list
`["B"]`, a file named `A` is still written — and it contains `B`'s payload
byte `y`, after which `B` itself is extracted from past the end of the
stream as empty.  The claim (only targeted entries produce output files)
matches the evident intent of `if(!found) in.ignore(f.length);` but not the
code. -/
theorem extract_lbr_target_filter_bug :
    extract_lbr true false false [[66]]
        (archive [⟨[65], 83, 1⟩, ⟨[66], 83, 1⟩] [120, 121]) =
      some [([65], [121]), ([66], [])] := by decide

/-- C6: on a well-formed archive whose first acceptable match for the
target (first record whose decoded name equals the target; a `D`-typed
match is rejected and scanning continues when `skipDeleted` is set) is
entry `i`, `find_in_lbr` returns its declared length, the stream offset at
which its directory record begins, and the position immediately after the
full directory plus the declared lengths of the entries scanned before the
match. -/
theorem find_in_lbr_locates (conv skipDel : Bool) (target : List Nat) (es : List Ent)
    (pay : List Nat) (i : Nat)
    (hwf : WFDir es) (hsane : SaneDir es) (hi : i < es.length)
    (hm : entMatches conv skipDel target (es.getD i dEnt))
    (hfirst : ∀ j < i, ¬entMatches conv skipDel target (es.getD j dEnt)) :
    find_in_lbr conv skipDel (archive es pay) target =
      some (((es.getD i dEnt).len : Int), doffAt es i,
            ((dirEnd es + payBefore es i : Nat) : Int)) :=
  find_in_lbr_spec hwf hsane hi hm hfirst

theorem find_in_lbr_locates_witness :
    (WFDir [⟨[65], 68, 0⟩, ⟨[65], 83, 2⟩] ∧ SaneDir [⟨[65], 68, 0⟩, ⟨[65], 83, 2⟩] ∧
      (1 : Nat) < 2 ∧
      entMatches true true [65] (([⟨[65], 68, 0⟩, ⟨[65], 83, 2⟩] :
        List Ent).getD 1 dEnt) ∧
      (∀ j < 1, ¬entMatches true true [65] (([⟨[65], 68, 0⟩, ⟨[65], 83, 2⟩] :
        List Ent).getD j dEnt))) ∧
    find_in_lbr true true (archive [⟨[65], 68, 0⟩, ⟨[65], 83, 2⟩] [120, 121]) [65] =
      some ((2 : Int), doffAt [⟨[65], 68, 0⟩, ⟨[65], 83, 2⟩] 1,
        ((dirEnd [⟨[65], 68, 0⟩, ⟨[65], 83, 2⟩] +
          payBefore [⟨[65], 68, 0⟩, ⟨[65], 83, 2⟩] 1 : Nat) : Int)) :=
  ⟨⟨by decide, by decide, by decide, by decide, by decide⟩,
    find_in_lbr_locates true true [65] [⟨[65], 68, 0⟩, ⟨[65], 83, 2⟩] [120, 121] 1
      (by decide) (by decide) (by decide) (by decide) (by decide)⟩

/-- C7: extracting an archive whose entry `e` is the first one flagged
`badLength` processes the sane entries before it normally, then — upon
reaching `e` — dumps every remaining byte of the stream verbatim into one
output file named by the raw stored name of `e` and stops: no entry after
`e` is extracted and no further directory structure is interpreted, and the
operation still succeeds (returns output, not failure). -/
theorem extract_lbr_bad_length_glob (conv skipDel addExt : Bool)
    (targets : List (List Nat)) (es1 : List Ent) (e : Ent) (es2 : List Ent)
    (pay : List Nat)
    (hwf : WFDir (es1 ++ e :: es2)) (hsane1 : SaneDir es1)
    (hbad : MAX_SANE_LENGTH < (e.len : Int)) :
    extract_lbr conv skipDel addExt targets (archive (es1 ++ e :: es2) pay) =
      some (extractLoop conv skipDel addExt targets (archive (es1 ++ e :: es2) pay)
              (es1.map entFE) (dirEnd (es1 ++ e :: es2))
            ++ [(e.name, (archive (es1 ++ e :: es2) pay).drop
                  (dirEnd (es1 ++ e :: es2) +
                    consumedSum conv skipDel targets (es1.map entFE)))]) :=
  extract_lbr_bad_glob conv skipDel addExt targets es1 e es2 pay hwf hsane1 hbad

theorem extract_lbr_bad_length_glob_witness :
    (WFDir ([⟨[66], 83, 1⟩] ++ (⟨[65], 83, 2000000⟩ : Ent) :: [⟨[67], 83, 1⟩]) ∧
      SaneDir [⟨[66], 83, 1⟩] ∧
      MAX_SANE_LENGTH < ((2000000 : Nat) : Int)) ∧
    extract_lbr true false false []
        (archive ([⟨[66], 83, 1⟩] ++ (⟨[65], 83, 2000000⟩ : Ent) :: [⟨[67], 83, 1⟩])
          [120]) =
      some [([66], [120]), ([65], [])] :=
  ⟨⟨by decide, by decide, by decide⟩, by
    rw [extract_lbr_bad_length_glob true false false [] [⟨[66], 83, 1⟩]
      ⟨[65], 83, 2000000⟩ [⟨[67], 83, 1⟩] [120] (by decide) (by decide) (by decide)]
    decide⟩

/-- C1 (counterexample): build-then-list does not return the source
metadata name: building from the single file `a` (1 byte) and listing
yields the line `A (S) 1`, not `a (S) 1` — the name goes one way through
the lossy codec. -/
theorem build_then_list_cex :
    ((build_lbr true [⟨[97], [120]⟩] false false false).bind
        (list_lbr true false false false) =
      some [[65, 32, 40, 83, 41, 32, 49]]) ∧
    some [[65, 32, 40, 83, 41, 32, 49]] ≠ some [[97, 32, 40, 83, 41, 32, 49]] := by
  decide

/-- C1 (amended): building an archive with `build_lbr` (no sort, no
padding, no extension stripping) and listing it with `list_lbr` yields
exactly one entry per source file, in order; each entry's declared length
and type match the metadata derived from the source file (`D` when empty,
else by lowercased extension), and each entry's listed name is the codec
round-trip `petscii2ascii (ascii2petscii name)` of the source file name —
equal to the name itself exactly when it lies in the codec's stable
subset. -/
theorem build_then_list (files : List SrcFile)
    (hn : (files.length : Int) < 2 ^ 31)
    (hf : ∀ f ∈ files, f.name ≠ [] ∧ f.name.length ≤ 255 ∧
      ((f.content.length : Int) < 2 ^ 31)) :
    build_lbr true files false false false = some (emitLBR true false files) ∧
    list_lbr true false false false (emitLBR true false files) =
      some (files.map fun f =>
        petscii2ascii true (ascii2petscii true f.name) ++ [32, 40] ++ [typeByte f]
          ++ [41, 32] ++ decRepr f.content.length) := by
  constructor
  · rfl
  · rw [emitLBR_eq_archive]
    have hwf : WFDir (files.map (toEnt true false)) := by
      constructor
      · intro e he
        obtain ⟨f, hmem, rfl⟩ := List.mem_map.1 he
        obtain ⟨h1, h2, h3⟩ := hf f hmem
        have hstrip : stripName false f.name = f.name := rfl
        refine ⟨?_, ?_, ?_, typeByte_ne_13 f, h3⟩
        · show ascii2petscii true (stripName false f.name) ≠ []
          rw [hstrip]
          simp only [ascii2petscii, if_pos, ne_eq, List.map_eq_nil_iff]
          exact h1
        · show (ascii2petscii true (stripName false f.name)).length ≤ 255
          rw [hstrip, length_ascii2petscii]
          exact h2
        · show 13 ∉ ascii2petscii true (stripName false f.name)
          rw [hstrip]
          exact cr_not_mem_a2p f.name
      · simpa using hn
    rw [list_lbr_archive true false _ _ hwf]
    congr 1
    rw [List.map_map]
    apply List.map_congr_left
    intro f hmem
    obtain ⟨h1, h2, h3⟩ := hf f hmem
    have := renderLine_entFE true false (e := toEnt true false f)
      (by simpa [toEnt] using h3)
    simp only [Function.comp_apply, this]
    have hname : (toEnt true false f).name = ascii2petscii true f.name := rfl
    have htype : (toEnt true false f).type = typeByte f := rfl
    have hlen : (toEnt true false f).len = f.content.length := rfl
    rw [hname, htype, hlen]
    have hp2at : petscii2ascii true [typeByte f] = [typeByte f] := by
      simp [petscii2ascii, p2aByte_typeByte f]
    rw [hp2at]
    have hsuf : (if 1048576 < f.content.length then
        (if false = true then ([32, 40, 98, 97, 100, 41] : List Nat) else []) else
          ([] : List Nat)) = [] := by
      split <;> rfl
    rw [hsuf]
    simp

theorem build_then_list_witness :
    (((([⟨[66, 46, 80, 82, 71], [120]⟩, ⟨[67], []⟩] : List SrcFile).length : Int) <
        2 ^ 31) ∧
      (∀ f ∈ ([⟨[66, 46, 80, 82, 71], [120]⟩, ⟨[67], []⟩] : List SrcFile),
        f.name ≠ [] ∧ f.name.length ≤ 255 ∧ ((f.content.length : Int) < 2 ^ 31))) ∧
    (build_lbr true [⟨[66, 46, 80, 82, 71], [120]⟩, ⟨[67], []⟩] false false false =
        some (emitLBR true false [⟨[66, 46, 80, 82, 71], [120]⟩, ⟨[67], []⟩]) ∧
      list_lbr true false false false
          (emitLBR true false [⟨[66, 46, 80, 82, 71], [120]⟩, ⟨[67], []⟩]) =
        some (([⟨[66, 46, 80, 82, 71], [120]⟩, ⟨[67], []⟩] : List SrcFile).map fun f =>
          petscii2ascii true (ascii2petscii true f.name) ++ [32, 40] ++ [typeByte f]
            ++ [41, 32] ++ decRepr f.content.length)) :=
  ⟨⟨by decide, by decide⟩,
    build_then_list [⟨[66, 46, 80, 82, 71], [120]⟩, ⟨[67], []⟩] (by decide) (by decide)⟩

/-- C9 (counterexample): with default (non-verbose) output, an entry whose
declared length `2000000` exceeds 1 MiB is rendered without any `(bad)`
flag — the flag is printed only under `--verbose` (src/lbr.cpp lines
629-632) — although listing does continue with the next entry. -/
theorem list_lbr_bad_cex :
    list_lbr true false false false
        (archive [⟨[65], 83, 2000000⟩, ⟨[66], 83, 1⟩] []) =
      some [[65, 32, 40, 83, 41, 32] ++ decRepr 2000000,
            [66, 32, 40, 83, 41, 32, 49]] ∧
    ([65, 32, 40, 83, 41, 32] ++ decRepr 2000000 : List Nat) ≠
      [65, 32, 40, 83, 41, 32] ++ decRepr 2000000 ++ [32, 40, 98, 97, 100, 41] := by
  decide

/-- C9 (amended): in verbose mode, `list_lbr` renders every entry of a
well-formed archive as `name (type) length`, appending the flag `" (bad)"`
exactly to the entries whose declared length exceeds 1 MiB, and continues
with the next entry after a bad one (the negative-length test of the
source is vacuous on the unsigned field; a negative `atoi` value wraps to
a huge unsigned one and is caught by the 1 MiB bound). -/
theorem list_lbr_bad_flag (es : List Ent) (pay : List Nat) (hwf : WFDir es) :
    list_lbr true true false false (archive es pay) =
      some (es.map fun e =>
        petscii2ascii true e.name ++ [32, 40] ++ petscii2ascii true [e.type] ++ [41, 32]
          ++ decRepr e.len
          ++ (if 1048576 < e.len then [32, 40, 98, 97, 100, 41] else [])) := by
  rw [list_lbr_archive true true es pay hwf]
  congr 1
  apply List.map_congr_left
  intro e he
  rw [renderLine_entFE true true (hwf.1 e he).2.2.2.2]
  congr 1

theorem list_lbr_bad_flag_witness :
    WFDir [⟨[65], 83, 2000000⟩, ⟨[66], 83, 1⟩] ∧
    list_lbr true true false false
        (archive [⟨[65], 83, 2000000⟩, ⟨[66], 83, 1⟩] []) =
      some (([⟨[65], 83, 2000000⟩, ⟨[66], 83, 1⟩] : List Ent).map fun e =>
        petscii2ascii true e.name ++ [32, 40] ++ petscii2ascii true [e.type] ++ [41, 32]
          ++ decRepr e.len
          ++ (if 1048576 < e.len then [32, 40, 98, 97, 100, 41] else [])) :=
  ⟨by decide, list_lbr_bad_flag [⟨[65], 83, 2000000⟩, ⟨[66], 83, 1⟩] [] (by decide)⟩

/-- C4 (counterexample): deleting (keep mode) the 10-byte entry `A` from a
26-byte archive yields 15 bytes, not 26 - 10 = 16: the length field is
rewritten as ` 0 ` so the size also drops by the old field width minus
one. -/
theorem delete_lbr_keep_cex :
    (archive [⟨[65], 83, 10⟩] (List.replicate 10 120)).length = 26 ∧
    (delete_lbr false false false (archive [⟨[65], 83, 10⟩] (List.replicate 10 120))
        [65]).map List.length = some 15 ∧
    (15 : Nat) ≠ 26 - 10 := by
  decide

/-- C4 (amended): on a well-formed archive, delete-keep rewrites the first
matching record in place — same name, type `D` (68), length field ` 0 ` —
removes exactly that entry payload, leaves the header (declared count
included) untouched, and the output size is the original size plus one
minus the payload length minus the decimal width of the old length field
(the claimed decrease by exactly the payload length holds only for
single-digit lengths). -/
theorem delete_lbr_keep_spec (conv skipDel : Bool) (target : List Nat) (es : List Ent)
    (pay : List Nat) (i : Nat)
    (hwf : WFDir es) (hsane : SaneDir es) (hpay : pay.length = totalLen es)
    (hi : i < es.length)
    (hm : entMatches conv skipDel target (es.getD i dEnt))
    (hfirst : ∀ j < i, ¬entMatches conv skipDel target (es.getD j dEnt)) :
    delete_lbr conv skipDel false (archive es pay) target =
      some (deleteKeepExpected es pay i) ∧
    (deleteKeepExpected es pay i).take (hdrSize es.length) =
      (archive es pay).take (hdrSize es.length) ∧
    (deleteKeepExpected es pay i).length + (es.getD i dEnt).len
        + (decRepr (es.getD i dEnt).len).length =
      (archive es pay).length + 1 := by
  have hemem : es.getD i dEnt ∈ es := by
    have h := drop_eq_getD_cons hi
    have h2 : es.getD i dEnt ∈ es.drop i := by rw [h]; simp
    exact List.mem_of_mem_drop h2
  have hwfe : WFEnt (es.getD i dEnt) := hwf.1 _ hemem
  have hD : doffAt es i = hdrSize es.length + dirSize (List.take i es) := rfl
  have hE : dirEnd es = hdrSize es.length + dirSize es := rfl
  have hsplit := dirSize_split hi
  have htsplit := totalLen_split hi
  have hlen := length_archive es pay
  have h7 := hdrSize_ge es.length
  have hrs : recSize (es.getD i dEnt) =
      (es.getD i dEnt).name.length + (decRepr (es.getD i dEnt).len).length + 6 := rfl
  have hAlen : hdrSize es.length ≤ (archive es pay).length := by
    rw [hlen, hE]; omega
  have hDge : hdrSize es.length ≤ doffAt es i := by
    rw [hD]; omega
  refine ⟨delete_lbr_keep_eq conv skipDel target es pay i hwf hsane hpay hi hm hfirst,
    ?_, ?_⟩
  · have h2 : deleteKeepExpected es pay i =
        (archive es pay).take (doffAt es i) ++ ((es.getD i dEnt).name ++
          ([13, 68, 13, 32, 48, 32, 13] ++
            (((archive es pay).drop (doffAt es i + recSize (es.getD i dEnt))).take
                (dirEnd es + payBefore es i
                  - (doffAt es i + recSize (es.getD i dEnt))) ++
              (archive es pay).drop
                (dirEnd es + payBefore es i + (es.getD i dEnt).len)))) := by
      simp only [deleteKeepExpected, List.append_assoc]
    rw [h2, List.take_append_of_le_length (by rw [List.length_take]; omega),
      List.take_take, Nat.min_eq_left hDge]
  · simp only [deleteKeepExpected, List.length_append, List.length_take, List.length_drop,
      List.length_cons, List.length_nil]
    omega

theorem delete_lbr_keep_spec_witness :
    (WFDir [⟨[65], 83, 3⟩] ∧ SaneDir [⟨[65], 83, 3⟩] ∧
      ([120, 121, 122] : List Nat).length = totalLen [⟨[65], 83, 3⟩] ∧
      0 < ([⟨[65], 83, 3⟩] : List Ent).length ∧
      entMatches false false [65] (([⟨[65], 83, 3⟩] : List Ent).getD 0 dEnt) ∧
      (∀ j < 0, ¬entMatches false false [65] (([⟨[65], 83, 3⟩] : List Ent).getD j dEnt))) ∧
    (delete_lbr false false false (archive [⟨[65], 83, 3⟩] [120, 121, 122]) [65] =
        some (deleteKeepExpected [⟨[65], 83, 3⟩] [120, 121, 122] 0) ∧
      (deleteKeepExpected [⟨[65], 83, 3⟩] [120, 121, 122] 0).take
          (hdrSize ([⟨[65], 83, 3⟩] : List Ent).length) =
        (archive [⟨[65], 83, 3⟩] [120, 121, 122]).take
          (hdrSize ([⟨[65], 83, 3⟩] : List Ent).length) ∧
      (deleteKeepExpected [⟨[65], 83, 3⟩] [120, 121, 122] 0).length
          + (([⟨[65], 83, 3⟩] : List Ent).getD 0 dEnt).len
          + (decRepr (([⟨[65], 83, 3⟩] : List Ent).getD 0 dEnt).len).length =
        (archive [⟨[65], 83, 3⟩] [120, 121, 122]).length + 1) :=
  ⟨⟨by decide, by decide, by decide, by decide, by decide, by decide⟩,
    delete_lbr_keep_spec false false [65] [⟨[65], 83, 3⟩] [120, 121, 122] 0
      (by decide) (by decide) (by decide) (by decide) (by decide) (by decide)⟩

/-- C3 (counterexample): wiping the single 3-byte entry `A` from an
18-byte archive yields 8 bytes, not 18 - (record size + payload) = 7:
when the target is the first record, the copy loop retains one stray byte
of its name (src/lbr.cpp lines 379-381 read a byte before testing the
position and write it unconditionally). -/
theorem delete_lbr_wipe_cex :
    (archive [⟨[65], 83, 3⟩] [120, 121, 122]).length = 18 ∧
    (delete_lbr false false true (archive [⟨[65], 83, 3⟩] [120, 121, 122]) [65]).map
        List.length = some 8 ∧
    (8 : Nat) ≠ 18 - (recSize ⟨[65], 83, 3⟩ + 3) := by
  decide

/-- C3 (amended): on a well-formed archive, wipe rewrites the header count
as one less, drops the matched record and its payload, and the output size
satisfies: size + record size + payload length + (old count width) =
original size + (new count width) + (1 if the target is the first record
else 0) — the claimed decrease by exactly record size plus payload also
shifts by the count-field width change and by one stray retained name byte
when the target is first. -/
theorem delete_lbr_wipe_spec (conv skipDel : Bool) (target : List Nat) (es : List Ent)
    (pay : List Nat) (i : Nat)
    (hwf : WFDir es) (hsane : SaneDir es) (hpay : pay.length = totalLen es)
    (hi : i < es.length)
    (hm : entMatches conv skipDel target (es.getD i dEnt))
    (hfirst : ∀ j < i, ¬entMatches conv skipDel target (es.getD j dEnt)) :
    delete_lbr conv skipDel true (archive es pay) target =
      some (deleteWipeExpected es pay i) ∧
    (deleteWipeExpected es pay i).take (6 + (decRepr (es.length - 1)).length) =
      [68, 87, 66, 32] ++ decRepr (es.length - 1) ++ [32, 13] ∧
    (deleteWipeExpected es pay i).length + recSize (es.getD i dEnt)
        + (es.getD i dEnt).len + (decRepr es.length).length =
      (archive es pay).length + (decRepr (es.length - 1)).length
        + (if i = 0 then 1 else 0) := by
  have hemem : es.getD i dEnt ∈ es := by
    have h := drop_eq_getD_cons hi
    have h2 : es.getD i dEnt ∈ es.drop i := by rw [h]; simp
    exact List.mem_of_mem_drop h2
  have hwfe : WFEnt (es.getD i dEnt) := hwf.1 _ hemem
  have hD : doffAt es i = hdrSize es.length + dirSize (List.take i es) := rfl
  have hE : dirEnd es = hdrSize es.length + dirSize es := rfl
  have hhdr : hdrSize es.length = 6 + (decRepr es.length).length := rfl
  have hsplit := dirSize_split hi
  have htsplit := totalLen_split hi
  have hlen := length_archive es pay
  have hrs : recSize (es.getD i dEnt) =
      (es.getD i dEnt).name.length + (decRepr (es.getD i dEnt).len).length + 6 := rfl
  refine ⟨delete_lbr_wipe_eq conv skipDel target es pay i hwf hsane hpay hi hm hfirst,
    ?_, ?_⟩
  · have hH : ([68, 87, 66, 32] ++ decRepr (es.length - 1) ++ [32, 13] : List Nat).length
        = 6 + (decRepr (es.length - 1)).length := by
      simp only [List.length_append, List.length_cons, List.length_nil]
      omega
    have h2 : deleteWipeExpected es pay i =
        ([68, 87, 66, 32] ++ decRepr (es.length - 1) ++ [32, 13]) ++
          ((if i = 0 then ((archive es pay).drop (hdrSize es.length)).take 1
              else ((archive es pay).drop (hdrSize es.length)).take
                (doffAt es i - hdrSize es.length)) ++
            (((archive es pay).drop (doffAt es i + recSize (es.getD i dEnt))).take
                (dirEnd es + payBefore es i
                  - (doffAt es i + recSize (es.getD i dEnt))) ++
              (archive es pay).drop
                (dirEnd es + payBefore es i + (es.getD i dEnt).len))) := by
      simp only [deleteWipeExpected, List.append_assoc]
    rw [h2, ← hH, List.take_left]
  · by_cases hi0 : i = 0
    · subst hi0
      have ht0 : dirSize (List.take 0 es) = 0 := rfl
      have hP0 : payBefore es 0 = 0 := rfl
      simp only [deleteWipeExpected, if_true, List.length_append,
        List.length_take, List.length_drop, List.length_cons, List.length_nil]
      omega
    · simp only [deleteWipeExpected, if_neg hi0, List.length_append,
        List.length_take, List.length_drop, List.length_cons, List.length_nil]
      omega

theorem delete_lbr_wipe_spec_witness :
    (WFDir [⟨[65], 83, 1⟩, ⟨[66], 83, 2⟩] ∧ SaneDir [⟨[65], 83, 1⟩, ⟨[66], 83, 2⟩] ∧
      ([120, 121, 122] : List Nat).length = totalLen [⟨[65], 83, 1⟩, ⟨[66], 83, 2⟩] ∧
      1 < ([⟨[65], 83, 1⟩, ⟨[66], 83, 2⟩] : List Ent).length ∧
      entMatches false false [66]
        (([⟨[65], 83, 1⟩, ⟨[66], 83, 2⟩] : List Ent).getD 1 dEnt) ∧
      (∀ j < 1, ¬entMatches false false [66]
        (([⟨[65], 83, 1⟩, ⟨[66], 83, 2⟩] : List Ent).getD j dEnt))) ∧
    (delete_lbr false false true
          (archive [⟨[65], 83, 1⟩, ⟨[66], 83, 2⟩] [120, 121, 122]) [66] =
        some (deleteWipeExpected [⟨[65], 83, 1⟩, ⟨[66], 83, 2⟩] [120, 121, 122] 1) ∧
      (deleteWipeExpected [⟨[65], 83, 1⟩, ⟨[66], 83, 2⟩] [120, 121, 122] 1).take
          (6 + (decRepr (([⟨[65], 83, 1⟩, ⟨[66], 83, 2⟩] : List Ent).length - 1)).length) =
        [68, 87, 66, 32]
          ++ decRepr (([⟨[65], 83, 1⟩, ⟨[66], 83, 2⟩] : List Ent).length - 1)
          ++ [32, 13] ∧
      (deleteWipeExpected [⟨[65], 83, 1⟩, ⟨[66], 83, 2⟩] [120, 121, 122] 1).length
          + recSize (([⟨[65], 83, 1⟩, ⟨[66], 83, 2⟩] : List Ent).getD 1 dEnt)
          + (([⟨[65], 83, 1⟩, ⟨[66], 83, 2⟩] : List Ent).getD 1 dEnt).len
          + (decRepr ([⟨[65], 83, 1⟩, ⟨[66], 83, 2⟩] : List Ent).length).length =
        (archive [⟨[65], 83, 1⟩, ⟨[66], 83, 2⟩] [120, 121, 122]).length
          + (decRepr (([⟨[65], 83, 1⟩, ⟨[66], 83, 2⟩] : List Ent).length - 1)).length
          + (if (1 : Nat) = 0 then 1 else 0)) :=
  ⟨⟨by decide, by decide, by decide, by decide, by decide, by decide⟩,
    delete_lbr_wipe_spec false false [66] [⟨[65], 83, 1⟩, ⟨[66], 83, 2⟩] [120, 121, 122] 1
      (by decide) (by decide) (by decide) (by decide) (by decide) (by decide)⟩

/-- C5: on a well-formed archive, change-type is byte-exact: the output is
the original archive with only the single type byte of the first matching
record replaced by the codec image of the new type, and (for a one-byte
new type, as the caller passes) the total size is unchanged. -/
theorem chtype_lbr_spec (conv skipDel : Bool) (target newType : List Nat) (es : List Ent)
    (pay : List Nat) (i : Nat)
    (hwf : WFDir es) (hsane : SaneDir es) (hi : i < es.length)
    (hm : entMatches conv skipDel target (es.getD i dEnt))
    (hfirst : ∀ j < i, ¬entMatches conv skipDel target (es.getD j dEnt))
    (hnt : newType.length = 1) :
    chtype_lbr conv skipDel (archive es pay) target newType =
      some ((archive es pay).take (doffAt es i + (es.getD i dEnt).name.length + 1)
        ++ ascii2petscii conv newType
        ++ (archive es pay).drop
            (doffAt es i + (es.getD i dEnt).name.length + 1 + 1)) ∧
    ((archive es pay).take (doffAt es i + (es.getD i dEnt).name.length + 1)
        ++ ascii2petscii conv newType
        ++ (archive es pay).drop
            (doffAt es i + (es.getD i dEnt).name.length + 1 + 1)).length =
      (archive es pay).length := by
  refine ⟨chtype_lbr_eq conv skipDel target newType es pay i hwf hsane hi hm hfirst, ?_⟩
  have hemem : es.getD i dEnt ∈ es := by
    have h := drop_eq_getD_cons hi
    have h2 : es.getD i dEnt ∈ es.drop i := by rw [h]; simp
    exact List.mem_of_mem_drop h2
  have hwfe : WFEnt (es.getD i dEnt) := hwf.1 _ hemem
  have hD : doffAt es i = hdrSize es.length + dirSize (List.take i es) := rfl
  have hE : dirEnd es = hdrSize es.length + dirSize es := rfl
  have hsplit := dirSize_split hi
  have hlen := length_archive es pay
  have hrs : recSize (es.getD i dEnt) =
      (es.getD i dEnt).name.length + (decRepr (es.getD i dEnt).len).length + 6 := rfl
  have hdl : 1 ≤ (decRepr (es.getD i dEnt).len).length :=
    List.length_pos.2 (decRepr_ne_nil _)
  simp only [List.length_append, List.length_take, List.length_drop,
    length_ascii2petscii, hnt]
  omega

theorem chtype_lbr_spec_witness :
    (WFDir [⟨[65], 83, 1⟩, ⟨[66], 83, 1⟩] ∧ SaneDir [⟨[65], 83, 1⟩, ⟨[66], 83, 1⟩] ∧
      1 < ([⟨[65], 83, 1⟩, ⟨[66], 83, 1⟩] : List Ent).length ∧
      entMatches false false [66]
        (([⟨[65], 83, 1⟩, ⟨[66], 83, 1⟩] : List Ent).getD 1 dEnt) ∧
      (∀ j < 1, ¬entMatches false false [66]
        (([⟨[65], 83, 1⟩, ⟨[66], 83, 1⟩] : List Ent).getD j dEnt)) ∧
      ([85] : List Nat).length = 1) ∧
    (chtype_lbr false false (archive [⟨[65], 83, 1⟩, ⟨[66], 83, 1⟩] [120, 121]) [66] [85] =
        some ((archive [⟨[65], 83, 1⟩, ⟨[66], 83, 1⟩] [120, 121]).take
            (doffAt [⟨[65], 83, 1⟩, ⟨[66], 83, 1⟩] 1
              + (([⟨[65], 83, 1⟩, ⟨[66], 83, 1⟩] : List Ent).getD 1 dEnt).name.length + 1)
          ++ ascii2petscii false [85]
          ++ (archive [⟨[65], 83, 1⟩, ⟨[66], 83, 1⟩] [120, 121]).drop
              (doffAt [⟨[65], 83, 1⟩, ⟨[66], 83, 1⟩] 1
                + (([⟨[65], 83, 1⟩, ⟨[66], 83, 1⟩] : List Ent).getD 1 dEnt).name.length
                + 1 + 1)) ∧
      ((archive [⟨[65], 83, 1⟩, ⟨[66], 83, 1⟩] [120, 121]).take
            (doffAt [⟨[65], 83, 1⟩, ⟨[66], 83, 1⟩] 1
              + (([⟨[65], 83, 1⟩, ⟨[66], 83, 1⟩] : List Ent).getD 1 dEnt).name.length + 1)
          ++ ascii2petscii false [85]
          ++ (archive [⟨[65], 83, 1⟩, ⟨[66], 83, 1⟩] [120, 121]).drop
              (doffAt [⟨[65], 83, 1⟩, ⟨[66], 83, 1⟩] 1
                + (([⟨[65], 83, 1⟩, ⟨[66], 83, 1⟩] : List Ent).getD 1 dEnt).name.length
                + 1 + 1)).length =
        (archive [⟨[65], 83, 1⟩, ⟨[66], 83, 1⟩] [120, 121]).length) :=
  ⟨⟨by decide, by decide, by decide, by decide, by decide, by decide⟩,
    chtype_lbr_spec false false [66] [85] [⟨[65], 83, 1⟩, ⟨[66], 83, 1⟩] [120, 121] 1
      (by decide) (by decide) (by decide) (by decide) (by decide) (by decide)⟩

end LBR


